import Mathlib

/-!
# Infix expression parser

A shallow embedding of `Infix_Expression_Parser.cpp` (class `Evaluator`) and the
properties of its specification that were checked against it.

Modelling conventions.

* A `std::string` is the list of its characters (`Str`).
* `int` is a 32-bit two's complement integer carried in `Int`: `+`, `-` and `*`
  wrap modulo `2^32`; `a % 0`, `INT_MIN / -1` and `INT_MIN % -1` are the
  hardware divide fault (`Err.arithmeticTrap`), which is not a C++ exception.
* `std::map<string,int>` is an association list; `operator[]` on a missing key
  inserts the key with value `0`, as the standard library does.
* Every `throw` of the source is one constructor of `Err`; the exceptions thrown
  by `std::stoi` are constructors as well.
* The `Evaluator` object is passed explicitly: every member function that can
  touch `precedence` returns the new object next to its result, so that the
  object survives an exception exactly as it does in C++.
-/

namespace InfixParser

/-- A `std::string`. -/
abbrev Str := List Char

/-- The exceptions (and faults) an evaluation can end in. -/
inductive Err where
  /-- Thrown as `runtime_error("Division by zero")`. -/
  | divisionByZero
  /-- Thrown as `runtime_error("Unknown operator: " + op)`. -/
  | unknownOperator (op : Str)
  /-- Thrown as `runtime_error("Mismatched parentheses")`. -/
  | mismatchedParentheses
  /-- Thrown as `runtime_error("Invalid token: " + token)`. -/
  | invalidToken (token : Str)
  /-- Thrown as `runtime_error("Invalid expression")`. -/
  | invalidExpression
  /-- Thrown as `runtime_error("Invalid token in postfix: " + token)`. -/
  | invalidTokenInPostfix (token : Str)
  /-- Thrown by `std::stoi` as `std::out_of_range`. -/
  | stoiOutOfRange
  /-- Thrown by `std::stoi` as `std::invalid_argument`. -/
  | stoiInvalidArgument
  /-- Integer divide fault: `% 0`, `INT_MIN / -1`, `INT_MIN % -1`. -/
  | arithmeticTrap
  deriving DecidableEq, Repr

deriving instance DecidableEq for Except

/-! ## Library functions used by the source -/

/-- Smallest `int`. -/
def INT_MIN : Int := -2147483648

/-- Largest `int`. -/
def INT_MAX : Int := 2147483647

/-- Reduction of a mathematical integer to 32-bit two's complement. -/
def wrapInt (x : Int) : Int := (x + 2147483648) % 4294967296 - 2147483648

/-- Conversion of a C++ `bool` to `int`. -/
def boolToInt (b : Bool) : Int := if b then 1 else 0

/-- Function `isspace` of `<cctype>` in the "C" locale. -/
def isspace (ch : Char) : Bool :=
  ch = ' ' || ch = '\t' || ch = '\n' || ch = '\x0b' || ch = '\x0c' || ch = '\r'

/-- Function `isdigit` of `<cctype>`. -/
def isdigit (ch : Char) : Bool := ch.isDigit

/-- The test `isdigit(token[0])`; `token[0]` of an empty `std::string` is the
terminating `'\0'`, which is not a digit. -/
def headIsDigit (token : Str) : Bool :=
  match token with
  | [] => false
  | ch :: _ => isdigit ch

/-- Value of a string of decimal digits, most significant first. -/
def digitsValue (ds : Str) : Nat :=
  ds.foldl (fun acc ch => 10 * acc + (ch.toNat - 48)) 0

/-- Function `std::stoi` on a token without leading whitespace or sign: the
longest prefix of digits is converted, `std::invalid_argument` when there is
none, `std::out_of_range` when the value does not fit an `int`. -/
def stoi (token : Str) : Except Err Int :=
  if headIsDigit token then
    if (digitsValue (token.takeWhile isdigit) : Int) ≤ INT_MAX then
      .ok (digitsValue (token.takeWhile isdigit) : Int)
    else .error .stoiOutOfRange
  else .error .stoiInvalidArgument

/-- Function `std::to_string(int)`. -/
def to_string (n : Int) : Str :=
  if n < 0 then '-' :: Nat.toDigits 10 n.natAbs else Nat.toDigits 10 n.natAbs

/-- Conversion of a `double` holding the integer `x` to `int`; a value outside
the range of `int` gives `INT_MIN` (the x86 "integer indefinite"). -/
def doubleToInt (x : Int) : Int :=
  if INT_MIN ≤ x ∧ x ≤ INT_MAX then x else INT_MIN

/-- The expression `pow(a, b)` of `<cmath>` converted to `int`. For `b ≥ 0` the
power is an integer; it is exact in a `double` whenever it fits an `int`. For
`b < 0` the power is `1 / a^(-b)`, truncated toward zero (`±inf` for `a = 0`). -/
def powInt (a b : Int) : Int :=
  if 0 ≤ b then doubleToInt (a ^ b.toNat)
  else if a = 0 then INT_MIN
  else if a = 1 then 1
  else if a = -1 then (if b % 2 = 0 then 1 else -1)
  else 0

/-- Extraction `iss >> token` repeated to the end of the stream: the maximal
runs of non-whitespace characters. The first argument is the run being read. -/
def splitWsAux : Str → Str → List Str
  | cur, [] => if cur = [] then [] else [cur]
  | cur, ch :: rest =>
    if isspace ch then
      if cur = [] then splitWsAux [] rest else cur :: splitWsAux [] rest
    else splitWsAux (cur ++ [ch]) rest

/-- The tokens `while (iss >> token)` reads from `postfix`. -/
def splitWs (out : Str) : List Str := splitWsAux [] out

/-! ## The `std::map<string, int>` -/

/-- Member `find` of the map: the value stored under `k`, if any. -/
def mapFind : List (Str × Int) → Str → Option Int
  | [], _ => none
  | (k', v) :: rest, k => if k' = k then some v else mapFind rest k

/-- The assignment `m[k] = v`. -/
def mapAssign : List (Str × Int) → Str → Int → List (Str × Int)
  | [], k, v => [(k, v)]
  | (k', v') :: rest, k, v =>
    if k' = k then (k', v) :: rest else (k', v') :: mapAssign rest k v

/-- The read `m[k]`: the stored value, and the map afterwards. A missing key
is inserted with the value-initialised `int`, `0`. -/
def mapIndex (m : List (Str × Int)) (k : Str) : Int × List (Str × Int) :=
  match mapFind m k with
  | some v => (v, m)
  | none => (0, mapAssign m k 0)

/-! ## class `Evaluator` -/

/-- The object state: its only data member. -/
structure Evaluator where
  /-- Operator precedences. -/
  precedence : List (Str × Int)
  deriving DecidableEq, Repr

/-- The assignments of `initializePrecedence`, in source order. -/
def precedenceAssignments : List (Str × Int) :=
  [ (['!'], 8), (['+', '+'], 8), (['-', '-'], 8), (['-'], 8), (['^'], 7),
    (['*'], 6), (['/'], 6), (['%'], 6), (['+'], 5), (['-'], 5),
    (['>'], 4), (['>', '='], 4), (['<'], 4), (['<', '='], 4),
    (['=', '='], 3), (['!', '='], 3), (['&', '&'], 2), (['|', '|'], 1) ]

/-- Method `initializePrecedence`. -/
def Evaluator.initializePrecedence (e : Evaluator) : Evaluator :=
  ⟨precedenceAssignments.foldl (fun m kv => mapAssign m kv.1 kv.2) e.precedence⟩

/-- The constructor `Evaluator()`. -/
def Evaluator.new : Evaluator := Evaluator.initializePrecedence ⟨[]⟩

/-- Method `isOperator`. -/
def Evaluator.isOperator (e : Evaluator) (token : Str) : Bool :=
  (mapFind e.precedence token).isSome

/-- The read `precedence[k]` inside a member function. -/
def Evaluator.index (e : Evaluator) (k : Str) : Int × Evaluator :=
  ((mapIndex e.precedence k).1, ⟨(mapIndex e.precedence k).2⟩)

/-- Method `applyOperator`. -/
def applyOperator (op : Str) (a b : Int) : Except Err Int :=
  if op = ['+'] then .ok (wrapInt (a + b))
  else if op = ['-'] then .ok (wrapInt (a - b))
  else if op = ['*'] then .ok (wrapInt (a * b))
  else if op = ['/'] then
    if b = 0 then .error .divisionByZero
    else if a = INT_MIN ∧ b = -1 then .error .arithmeticTrap
    else .ok (Int.tdiv a b)
  else if op = ['%'] then
    if b = 0 then .error .arithmeticTrap
    else if a = INT_MIN ∧ b = -1 then .error .arithmeticTrap
    else .ok (Int.tmod a b)
  else if op = ['^'] then .ok (powInt a b)
  else if op = ['>'] then .ok (boolToInt (decide (a > b)))
  else if op = ['>', '='] then .ok (boolToInt (decide (a ≥ b)))
  else if op = ['<'] then .ok (boolToInt (decide (a < b)))
  else if op = ['<', '='] then .ok (boolToInt (decide (a ≤ b)))
  else if op = ['=', '='] then .ok (boolToInt (decide (a = b)))
  else if op = ['!', '='] then .ok (boolToInt (decide (a ≠ b)))
  else if op = ['&', '&'] then .ok (boolToInt (decide (a ≠ 0) && decide (b ≠ 0)))
  else if op = ['|', '|'] then .ok (boolToInt (decide (a ≠ 0) || decide (b ≠ 0)))
  else .error (.unknownOperator op)

/-- The condition under which `tokenize` appends `next` to the token. -/
def isTwoCharOperator (ch next : Char) : Bool :=
  (ch = '&' && next = '&') || (ch = '|' && next = '|') ||
  (ch = '=' && next = '=') || (ch = '!' && next = '=')

/-- The `for` loop of `tokenize` on the unread suffix of the expression. The
loop runs at most once per character, which the first argument counts. -/
def tokenizeLoop : Nat → Str → List Str
  | 0, _ => []
  | _ + 1, [] => []
  | fuel + 1, ch :: rest =>
    if isspace ch then tokenizeLoop fuel rest
    else if isdigit ch then
      (ch :: rest.takeWhile isdigit) :: tokenizeLoop fuel (rest.dropWhile isdigit)
    else
      match rest with
      | [] => [[ch]]
      | next :: rest' =>
        if isTwoCharOperator ch next then [ch, next] :: tokenizeLoop fuel rest'
        else [ch] :: tokenizeLoop fuel rest

/-- Method `tokenize`. -/
def tokenize (expression : Str) : List Str :=
  tokenizeLoop expression.length expression

/-- The `while` loop of the operator branch of `toPostfix`: pops to the output
while `precedence[opStack.top()] >= precedence[token]`. Both reads go through
`operator[]`, so the object is returned as well. -/
def popHigher (e : Evaluator) (token : Str) : List Str → Str → Evaluator × List Str × Str
  | [], out => (e, [], out)
  | top :: rest, out =>
    if ((e.index top).2.index token).1 ≤ (e.index top).1 then
      popHigher ((e.index top).2.index token).2 token rest (out ++ top ++ [' '])
    else (((e.index top).2.index token).2, top :: rest, out)

/-- The `while` loop of the `")"` branch of `toPostfix` followed by the test
and the `pop`: `none` when the stack empties before a `"("` is found. -/
def popToParen : List Str → Str → Option (List Str × Str)
  | [], _ => none
  | top :: rest, out =>
    if top = ['('] then some (rest, out)
    else popToParen rest (out ++ top ++ [' '])

/-- The final `while` loop of `toPostfix`. -/
def drainStack : List Str → Str → Except Err Str
  | [], out => .ok out
  | top :: rest, out =>
    if top = ['('] then .error .mismatchedParentheses
    else drainStack rest (out ++ top ++ [' '])

/-- The `for` loop of `toPostfix` and what follows it, from a given operator
stack (top first) and output. -/
def toPostfixLoop (e : Evaluator) (opStack : List Str) (out : Str) :
    List Str → Evaluator × Except Err Str
  | [] => (e, drainStack opStack out)
  | token :: tokens =>
    if headIsDigit token then
      toPostfixLoop e opStack (out ++ token ++ [' ']) tokens
    else if e.isOperator token then
      toPostfixLoop (popHigher e token opStack out).1
        (token :: (popHigher e token opStack out).2.1)
        (popHigher e token opStack out).2.2 tokens
    else if token = ['('] then
      toPostfixLoop e (token :: opStack) out tokens
    else if token = [')'] then
      match popToParen opStack out with
      | none => (e, .error .mismatchedParentheses)
      | some (st, pf) => toPostfixLoop e st pf tokens
    else (e, .error (.invalidToken token))

/-- Method `toPostfix`. -/
def Evaluator.toPostfix (e : Evaluator) (tokens : List Str) : Evaluator × Except Err Str :=
  toPostfixLoop e [] [] tokens

/-- The `while (iss >> token)` loop of `evaluatePostfix` and the final test,
from a given value stack (top first). -/
def evaluateLoop (e : Evaluator) : List Int → List Str → Except Err Int
  | evalStack, [] =>
    match evalStack with
    | [v] => .ok v
    | _ => .error .invalidExpression
  | evalStack, token :: rest =>
    if headIsDigit token then
      match stoi token with
      | .ok v => evaluateLoop e (v :: evalStack) rest
      | .error err => .error err
    else if e.isOperator token then
      match evalStack with
      | b :: a :: below =>
        match applyOperator token a b with
        | .ok r => evaluateLoop e (r :: below) rest
        | .error err => .error err
      | _ => .error .invalidExpression
    else .error (.invalidTokenInPostfix token)

/-- Method `evaluatePostfix`. -/
def Evaluator.evaluatePostfix (e : Evaluator) (out : Str) : Except Err Int :=
  evaluateLoop e [] (splitWs out)

/-- Method `isLogicalOperator`. -/
def isLogicalOperator (token : Str) : Bool :=
  token = ['&', '&'] || token = ['|', '|'] || token = ['>'] || token = ['<'] ||
  token = ['>', '='] || token = ['<', '='] || token = ['=', '='] || token = ['!', '=']

/-- Method `containsLogicalOperators`. -/
def containsLogicalOperators : List Str → Bool
  | [] => false
  | token :: rest => if isLogicalOperator token then true else containsLogicalOperators rest

/-- The text `eval` returns for the integer `result`. -/
def render (logical : Bool) (result : Int) : Str :=
  if logical then (if result ≠ 0 then "true".toList else "false".toList)
  else to_string result

/-- Method `eval`: the object afterwards, and the returned text or the
exception. -/
def Evaluator.eval (e : Evaluator) (expression : Str) : Evaluator × Except Err Str :=
  match e.toPostfix (tokenize expression) with
  | (e', .error err) => (e', .error err)
  | (e', .ok out) =>
    match e'.evaluatePostfix out with
    | .error err => (e', .error err)
    | .ok result =>
      (e', .ok (render (containsLogicalOperators (tokenize expression)) result))

/-! ## Vocabulary of the specification -/

/-- The eight comparison and logical symbols `isLogicalOperator` tests for. -/
def logicalSymbols : List Str :=
  [">".toList, ">=".toList, "<".toList, "<=".toList,
   "==".toList, "!=".toList, "&&".toList, "||".toList]

/-- A number literal: a non-empty string of decimal digits. -/
def isNumber (a : Str) : Bool := a.all isdigit && !a.isEmpty

/-- The binary operators whose ranks are 1 to 7, loosest first:
`||`, `&&`, `==`, `!=`, `<`, `>`, `+`, `-`, `*`, `/`, `%`, `^`. -/
def rankedOperators : List Str :=
  [['|', '|'], ['&', '&'], ['=', '='], ['!', '='], ['<'], ['>'],
   ['+'], ['-'], ['*'], ['/'], ['%'], ['^']]

/-- The output text of `toPostfix` for a sequence of output tokens: each token is
followed by one space. -/
def spaced (tokens : List Str) : Str := (tokens.map (fun t => t ++ [' '])).flatten

/-- A token the conversion has no branch for: not a number literal, not a key of
the initial precedence table, not a parenthesis. -/
def isUnknownToken (t : Str) : Bool :=
  !isNumber t && !Evaluator.new.isOperator t && !decide (t = ['(']) && !decide (t = [')'])

/-- The object after `precedence["("]` has been read once: the table built by the
constructor, with the additional key `(` of rank `0`. -/
def Evaluator.used : Evaluator := (Evaluator.new.index ['(']).2

/-- The objects a program can hold: the one the constructor builds, and the one
with `(` added to its table. Calls of `eval` lead to no other. -/
def isReachable (e : Evaluator) : Bool :=
  decide (e = Evaluator.new) || decide (e = Evaluator.used)

/-- The table of the object holds every key of the table built by the
constructor, with the same rank. -/
def extendsInitial (e : Evaluator) : Bool :=
  Evaluator.new.precedence.all fun kv => decide (mapFind e.precedence kv.1 = some kv.2)

/-! ## Evaluations on concrete expressions -/

/-- C1. Two calls of `eval` in a row on the same freshly constructed object, both
on `2*(1+2)`: the first returns `6`, and during it `precedence["("]` was read, so
`(` has become a key of the table; the second call therefore takes `(` for an
operator and fails with "Invalid expression". -/
theorem eval_twice_differs :
    (Evaluator.new.eval "2*(1+2)".toList).2 = .ok "6".toList ∧
    (Evaluator.new.eval "2*(1+2)".toList).1.isOperator "(".toList = true ∧
    ((Evaluator.new.eval "2*(1+2)".toList).1.eval "2*(1+2)".toList).2
      = .error .invalidExpression := by
  decide

/-- C2. On a freshly constructed object the fully parenthesised `((2+3)*4)` gives
`20`, but the fully parenthesised `((1+2)*(3+4))`, whose value is `21`, fails with
"Mismatched parentheses": the second inner `(` is read after `(` became a key of
the table and empties the operator stack. -/
theorem eval_fully_parenthesized_fails :
    (Evaluator.new.eval "((2+3)*4)".toList).2 = .ok "20".toList ∧
    (Evaluator.new.toPostfix (tokenize "((1+2)*(3+4))".toList)).2
      = .error .mismatchedParentheses ∧
    (Evaluator.new.eval "((1+2)*(3+4))".toList).2 = .error .mismatchedParentheses := by
  decide

/-- C7. On a freshly constructed object `(1+2` and `1+2)` fail with "Mismatched
parentheses", but `(1+2)((3)`, which has an unclosed `(`, fails with "Invalid
expression": its conversion succeeds with a `(` in the output. -/
theorem eval_unbalanced_not_mismatched :
    (Evaluator.new.eval "(1+2".toList).2 = .error .mismatchedParentheses ∧
    (Evaluator.new.eval "1+2)".toList).2 = .error .mismatchedParentheses ∧
    (Evaluator.new.toPostfix (tokenize "(1+2)((3)".toList)).2 = .ok "1 2 + ( 3 ".toList ∧
    (Evaluator.new.eval "(1+2)((3)".toList).2 = .error .invalidExpression := by
  decide

/-- C8. The documented examples `5 >= 5` and `4 <= 5` are tokenized with `>` (or
`<`) and `=` apart, and `eval` fails on the `=` with "Invalid token". -/
theorem eval_ge_le_invalid_token :
    tokenize "5 >= 5".toList = ["5".toList, ">".toList, "=".toList, "5".toList] ∧
    (Evaluator.new.eval "5 >= 5".toList).2 = .error (.invalidToken "=".toList) ∧
    (Evaluator.new.eval "4 <= 5".toList).2 = .error (.invalidToken "=".toList) ∧
    applyOperator ">=".toList 5 5 = .ok 1 := by
  decide

/-- C9. The documented example `!1` is converted to the output `1 ! `, and its
evaluation fails with "Invalid expression", because `!` is applied like a binary
operator and finds one operand. -/
theorem eval_not_invalid_expression :
    (Evaluator.new.toPostfix (tokenize "!1".toList)).2 = .ok "1 ! ".toList ∧
    (Evaluator.new.eval "!1".toList).2 = .error .invalidExpression ∧
    (Evaluator.new.eval "!0".toList).2 = .error .invalidExpression := by
  decide

/-! ## Result formatting -/

theorem isLogicalOperator_iff (t : Str) :
    isLogicalOperator t = true ↔ t ∈ logicalSymbols := by
  simp only [isLogicalOperator, Bool.or_eq_true, decide_eq_true_eq, logicalSymbols,
    String.toList, List.mem_cons, List.mem_singleton, List.not_mem_nil, or_false]
  tauto

/-- Function `containsLogicalOperators` answers whether some token is one of the
eight comparison and logical symbols. -/
theorem containsLogicalOperators_iff (tokens : List Str) :
    containsLogicalOperators tokens = true ↔ ∃ t ∈ tokens, t ∈ logicalSymbols := by
  induction tokens with
  | nil => simp [containsLogicalOperators]
  | cons t ts ih =>
    by_cases h : isLogicalOperator t = true
    · simp only [containsLogicalOperators, h, if_true, true_iff]
      exact ⟨t, List.mem_cons_self _ _, (isLogicalOperator_iff t).mp h⟩
    · have h' : ¬ t ∈ logicalSymbols := fun hm => h ((isLogicalOperator_iff t).mpr hm)
      simp only [containsLogicalOperators, h]
      constructor
      · intro hc
        obtain ⟨u, hu, hu'⟩ := ih.mp (by simpa using hc)
        exact ⟨u, List.mem_cons_of_mem _ hu, hu'⟩
      · rintro ⟨u, hu, hu'⟩
        rcases List.mem_cons.mp hu with hu | hu
        · subst hu; exact absurd hu' h'
        · simpa using ih.mpr ⟨u, hu, hu'⟩

theorem eval_ok_inv (e : Evaluator) (expression text : Str)
    (h : (e.eval expression).2 = .ok text) :
    ∃ pf r, (e.toPostfix (tokenize expression)).2 = .ok pf ∧
      (e.toPostfix (tokenize expression)).1.evaluatePostfix pf = .ok r ∧
      text = render (containsLogicalOperators (tokenize expression)) r := by
  unfold Evaluator.eval at h
  rcases hp : e.toPostfix (tokenize expression) with ⟨e', _ | pf⟩
  · rw [hp] at h; simp at h
  · rw [hp] at h
    rcases hr : e'.evaluatePostfix pf with _ | r
    · simp [hr] at h
    · simp [hr] at h
      exact ⟨pf, r, rfl, hr, h.symm⟩

/-- C6. Whenever `eval` returns a text, the conversion produced an output on which
`evaluatePostfix` computed an integer `r`; if some token of the expression is one
of `>`, `>=`, `<`, `<=`, `==`, `!=`, `&&`, `||` the text is `true` for `r ≠ 0` and
`false` for `r = 0`, and otherwise the text is the decimal rendering of `r`. -/
theorem eval_boolean_classification (e : Evaluator) (expression text : Str)
    (h : (e.eval expression).2 = .ok text) :
    ∃ pf r, (e.toPostfix (tokenize expression)).2 = .ok pf ∧
      (e.toPostfix (tokenize expression)).1.evaluatePostfix pf = .ok r ∧
      ((∃ t ∈ tokenize expression, t ∈ logicalSymbols) →
        (r ≠ 0 → text = "true".toList) ∧ (r = 0 → text = "false".toList)) ∧
      ((¬ ∃ t ∈ tokenize expression, t ∈ logicalSymbols) → text = to_string r) := by
  obtain ⟨pf, r, hpf, hr, ht⟩ := eval_ok_inv e expression text h
  refine ⟨pf, r, hpf, hr, ?_, ?_⟩
  · intro hex
    have hc := (containsLogicalOperators_iff _).mpr hex
    rw [hc] at ht
    constructor
    · intro hne; rw [ht]; simp [render, hne]
    · intro he; rw [ht]; simp [render, he]
  · intro hex
    have hc : containsLogicalOperators (tokenize expression) = false := by
      cases hb : containsLogicalOperators (tokenize expression)
      · rfl
      · exact absurd ((containsLogicalOperators_iff _).mp hb) hex
    rw [ht, hc]; simp [render]

/-- C6, at the expressions `1+1==2`, `1+1` and `(1<2)+5`. -/
theorem eval_boolean_classification_witness :
    ((Evaluator.new.eval "1+1==2".toList).2 = .ok "true".toList ∧
      (Evaluator.new.eval "1+1".toList).2 = .ok "2".toList ∧
      (Evaluator.new.eval "(1<2)+5".toList).2 = .ok "true".toList) ∧
    ∃ pf r, (Evaluator.new.toPostfix (tokenize "(1<2)+5".toList)).2 = .ok pf ∧
      (Evaluator.new.toPostfix (tokenize "(1<2)+5".toList)).1.evaluatePostfix pf = .ok r ∧
      ((∃ t ∈ tokenize "(1<2)+5".toList, t ∈ logicalSymbols) →
        (r ≠ 0 → "true".toList = "true".toList) ∧ (r = 0 → "true".toList = "false".toList)) ∧
      ((¬ ∃ t ∈ tokenize "(1<2)+5".toList, t ∈ logicalSymbols) →
        "true".toList = to_string r) :=
  ⟨by decide, eval_boolean_classification Evaluator.new "(1<2)+5".toList "true".toList (by decide)⟩


/-! ## The tokenizer -/

theorem tokenizeLoop_congr (n : Nat) : ∀ (m : Nat) (s : Str),
    s.length ≤ n → s.length ≤ m → tokenizeLoop n s = tokenizeLoop m s := by
  induction n with
  | zero =>
    intro m s hn _
    have hs : s = [] := List.length_eq_zero.mp (Nat.le_zero.mp hn)
    subst hs
    cases m <;> simp [tokenizeLoop]
  | succ n ih =>
    intro m s hn hm
    cases s with
    | nil => cases m <;> simp [tokenizeLoop]
    | cons ch rest =>
      cases m with
      | zero => simp at hm
      | succ m =>
        simp only [List.length_cons, Nat.add_le_add_iff_right] at hn hm
        have hd : (rest.dropWhile isdigit).length ≤ rest.length :=
          (List.dropWhile_sublist _).length_le
        simp only [tokenizeLoop]
        rw [ih m rest hn hm, ih m (rest.dropWhile isdigit) (hd.trans hn) (hd.trans hm)]
        cases rest with
        | nil => rfl
        | cons next rest' =>
          simp only [List.length_cons] at hn hm
          simp only [ih m rest' (by omega) (by omega)]

theorem tokenize_nil : tokenize [] = [] := rfl

theorem tokenize_cons (ch : Char) (rest : Str) :
    tokenize (ch :: rest) =
      if isspace ch then tokenize rest
      else if isdigit ch then
        (ch :: rest.takeWhile isdigit) :: tokenize (rest.dropWhile isdigit)
      else
        match rest with
        | [] => [[ch]]
        | next :: rest' =>
          if isTwoCharOperator ch next then [ch, next] :: tokenize rest'
          else [ch] :: tokenize rest := by
  have hd : (rest.dropWhile isdigit).length ≤ rest.length :=
    (List.dropWhile_sublist _).length_le
  simp only [tokenize, List.length_cons, tokenizeLoop]
  rw [tokenizeLoop_congr rest.length _ (rest.dropWhile isdigit) hd le_rfl]
  cases rest with
  | nil => rfl
  | cons next rest' =>
    simp only [List.length_cons]
    simp only [tokenizeLoop_congr (rest'.length + 1) rest'.length rest' (by omega) le_rfl]

theorem isdigit_not_isspace (ch : Char) (h : isdigit ch = true) : isspace ch = false := by
  simp only [isdigit, Char.isDigit, Bool.and_eq_true, decide_eq_true_eq] at h
  simp only [isspace, Bool.or_eq_false_iff, decide_eq_false_iff_not]
  have h1 := h.1
  refine ⟨⟨⟨⟨⟨?_, ?_⟩, ?_⟩, ?_⟩, ?_⟩, ?_⟩ <;> (intro hc; subst hc; revert h1; decide)


theorem isNumber_cons (a : Str) (h : isNumber a = true) :
    ∃ ch rest, a = ch :: rest ∧ isdigit ch = true ∧ rest.all isdigit = true := by
  cases a with
  | nil => simp [isNumber] at h
  | cons ch rest =>
    simp only [isNumber, List.all_cons, Bool.and_eq_true] at h
    exact ⟨ch, rest, rfl, h.1.1, h.1.2⟩

theorem headIsDigit_of_isNumber (a : Str) (h : isNumber a = true) :
    headIsDigit a = true := by
  obtain ⟨ch, rest, rfl, hch, _⟩ := isNumber_cons a h
  simpa [headIsDigit] using hch

theorem headIsDigit_append (a rest : Str) (h : headIsDigit a = true) :
    headIsDigit (a ++ rest) = true := by
  cases a with
  | nil => simp [headIsDigit] at h
  | cons ch a' => simpa [headIsDigit] using h

theorem takeWhile_digits_append (ds rest : Str) (hds : ds.all isdigit = true)
    (hr : headIsDigit rest = false) : (ds ++ rest).takeWhile isdigit = ds := by
  induction ds with
  | nil =>
    cases rest with
    | nil => rfl
    | cons c r => simp only [headIsDigit] at hr; simp [List.takeWhile, hr]
  | cons d ds ih =>
    simp only [List.all_cons, Bool.and_eq_true] at hds
    simp [List.takeWhile, hds.1, ih hds.2]

theorem dropWhile_digits_append (ds rest : Str) (hds : ds.all isdigit = true)
    (hr : headIsDigit rest = false) : (ds ++ rest).dropWhile isdigit = rest := by
  induction ds with
  | nil =>
    cases rest with
    | nil => rfl
    | cons c r => simp only [headIsDigit] at hr; simp [List.dropWhile, hr]
  | cons d ds ih =>
    simp only [List.all_cons, Bool.and_eq_true] at hds
    simp [List.dropWhile, hds.1, ih hds.2]

/-- A number literal followed by something that is not a digit is one token. -/
theorem tokenize_number_append (a rest : Str) (ha : isNumber a = true)
    (hr : headIsDigit rest = false) : tokenize (a ++ rest) = a :: tokenize rest := by
  obtain ⟨ch, ds, rfl, hch, hds⟩ := isNumber_cons a ha
  rw [List.cons_append, tokenize_cons, isdigit_not_isspace ch hch, hch,
    takeWhile_digits_append ds rest hds hr, dropWhile_digits_append ds rest hds hr]
  simp

/-- A number literal at the end of the expression is one token. -/
theorem tokenize_number (a : Str) (ha : isNumber a = true) : tokenize a = [a] := by
  have h := tokenize_number_append a [] ha rfl
  simpa [tokenize_nil] using h

/-- A character that is neither a space nor a digit, followed by a digit, is a
token of its own. -/
theorem tokenize_single (c : Char) (rest : Str) (hs : isspace c = false)
    (hd : isdigit c = false) (hr : headIsDigit rest = true) :
    tokenize (c :: rest) = [c] :: tokenize rest := by
  cases rest with
  | nil => simp [headIsDigit] at hr
  | cons next rest' =>
    simp only [headIsDigit] at hr
    have h2 : isTwoCharOperator c next = false := by
      simp only [isTwoCharOperator, Bool.or_eq_false_iff, Bool.and_eq_false_imp,
        decide_eq_true_eq, decide_eq_false_iff_not]
      refine ⟨⟨⟨?_, ?_⟩, ?_⟩, ?_⟩ <;>
        (intro _ hn; subst hn; revert hr; decide)
    rw [tokenize_cons, hs, hd]
    simp [h2]

/-- The two characters of `&&`, `||`, `==` or `!=` are one token. -/
theorem tokenize_double (c n : Char) (rest : Str) (h : isTwoCharOperator c n = true) :
    tokenize (c :: n :: rest) = [c, n] :: tokenize rest := by
  have hc : c = '&' ∨ c = '|' ∨ c = '=' ∨ c = '!' := by
    simp only [isTwoCharOperator, Bool.or_eq_true, Bool.and_eq_true, decide_eq_true_eq] at h
    tauto
  have hs : isspace c = false := by
    rcases hc with rfl | rfl | rfl | rfl <;> decide
  have hd : isdigit c = false := by
    rcases hc with rfl | rfl | rfl | rfl <;> decide
  rw [tokenize_cons, hs, hd]
  simp [h]


/-! ## The whitespace splitter of `evaluatePostfix` -/

theorem splitWsAux_run (tok : Str) : ∀ (cur rest : Str),
    tok.all (fun ch => !isspace ch) = true →
    splitWsAux cur (tok ++ rest) = splitWsAux (cur ++ tok) rest := by
  induction tok with
  | nil => intro cur rest _; simp
  | cons c tok ih =>
    intro cur rest h
    simp only [List.all_cons, Bool.and_eq_true, Bool.not_eq_true'] at h
    have hrest : tok.all (fun ch => !isspace ch) = true := h.2
    have step : splitWsAux cur (c :: (tok ++ rest)) = splitWsAux (cur ++ [c]) (tok ++ rest) := by
      simp only [splitWsAux, h.1, Bool.false_eq_true, if_false]
    rw [List.cons_append, step, ih (cur ++ [c]) rest hrest]
    simp

/-- A non-empty run without whitespace, followed by a space, is read as one
token. -/
theorem splitWs_token (tok rest : Str) (hne : tok ≠ [])
    (h : tok.all (fun ch => !isspace ch) = true) :
    splitWs (tok ++ ' ' :: rest) = tok :: splitWs rest := by
  have hsp : isspace ' ' = true := by decide
  simp only [splitWs]
  rw [splitWsAux_run tok [] (' ' :: rest) h]
  simp [splitWsAux, hsp, hne]

theorem splitWs_nil : splitWs [] = [] := rfl

theorem isNumber_noSpace (a : Str) (h : isNumber a = true) :
    a.all (fun ch => !isspace ch) = true := by
  simp only [isNumber, Bool.and_eq_true, List.all_eq_true] at h
  simp only [List.all_eq_true, Bool.not_eq_true']
  intro ch hch
  exact isdigit_not_isspace ch (h.1 ch hch)

theorem isNumber_ne_nil (a : Str) (h : isNumber a = true) : a ≠ [] := by
  rintro rfl; simp [isNumber] at h

/-! ## The precedence table -/

theorem new_precedence :
    Evaluator.new.precedence =
      [ (['!'], 8), (['+', '+'], 8), (['-', '-'], 8), (['-'], 5), (['^'], 7),
        (['*'], 6), (['/'], 6), (['%'], 6), (['+'], 5),
        (['>'], 4), (['>', '='], 4), (['<'], 4), (['<', '='], 4),
        (['=', '='], 3), (['!', '='], 3), (['&', '&'], 2), (['|', '|'], 1) ] := by
  decide

theorem mapFind_some_mem (m : List (Str × Int)) (k : Str) (v : Int)
    (h : mapFind m k = some v) : (k, v) ∈ m := by
  induction m with
  | nil => simp [mapFind] at h
  | cons kv m ih =>
    obtain ⟨k', v'⟩ := kv
    simp only [mapFind] at h
    by_cases hk : k' = k
    · simp only [hk, if_true, Option.some.injEq] at h
      subst hk; subst h; exact List.mem_cons_self _ _
    · simp only [hk, if_false] at h
      exact List.mem_cons_of_mem _ (ih h)

/-- What the conversion and the evaluation need to know of a key of the initial
table: it does not start with a digit, is not `(`, and is a non-empty run without
whitespace. -/
theorem table_key_shape (op : Str) (r : Int)
    (h : mapFind Evaluator.new.precedence op = some r) :
    headIsDigit op = false ∧ op ≠ ['('] ∧ op ≠ [] ∧
      op.all (fun ch => !isspace ch) = true := by
  have hm := mapFind_some_mem _ _ _ h
  rw [new_precedence] at hm
  simp only [List.mem_cons, Prod.mk.injEq, List.mem_singleton, List.not_mem_nil,
    or_false] at hm
  rcases hm with ⟨rfl, _⟩ | ⟨rfl, _⟩ | ⟨rfl, _⟩ | ⟨rfl, _⟩ | ⟨rfl, _⟩ | ⟨rfl, _⟩ |
    ⟨rfl, _⟩ | ⟨rfl, _⟩ | ⟨rfl, _⟩ | ⟨rfl, _⟩ | ⟨rfl, _⟩ | ⟨rfl, _⟩ | ⟨rfl, _⟩ |
    ⟨rfl, _⟩ | ⟨rfl, _⟩ | ⟨rfl, _⟩ | ⟨rfl, _⟩ <;> decide

theorem index_of_find (e : Evaluator) (k : Str) (v : Int)
    (h : mapFind e.precedence k = some v) : e.index k = (v, e) := by
  simp [Evaluator.index, mapIndex, h]

theorem isOperator_of_find (e : Evaluator) (k : Str) (v : Int)
    (h : mapFind e.precedence k = some v) : e.isOperator k = true := by
  simp [Evaluator.isOperator, h]


/-- An object that holds the initial table answers every lookup of an initial
key like a freshly constructed one. -/
theorem extendsInitial_find (e : Evaluator) (he : extendsInitial e = true) (k : Str)
    (v : Int) (h : mapFind Evaluator.new.precedence k = some v) :
    mapFind e.precedence k = some v := by
  have hm := mapFind_some_mem _ _ _ h
  simp only [extendsInitial, List.all_eq_true, decide_eq_true_eq] at he
  exact he (k, v) hm

theorem isReachable_cases (e : Evaluator) (h : isReachable e = true) :
    e = Evaluator.new ∨ e = Evaluator.used := by
  simpa [isReachable] using h

/-- Both objects a program can hold have the initial table in theirs. -/
theorem extendsInitial_of_isReachable (e : Evaluator) (h : isReachable e = true) :
    extendsInitial e = true := by
  rcases isReachable_cases e h with rfl | rfl <;> decide

/-! ## Conversion and evaluation of `a op1 b op2 c` -/

/-- Conversion of `a op1 b op2 c` when `op2` does not bind tighter than `op1`:
`op1` is popped to the output before `op2` is pushed. -/
theorem toPostfix_chain_pop (e : Evaluator) (a b c op1 op2 : Str) (r1 r2 : Int)
    (ha : headIsDigit a = true) (hb : headIsDigit b = true) (hc : headIsDigit c = true)
    (h1 : headIsDigit op1 = false) (h2 : headIsDigit op2 = false)
    (p2 : op2 ≠ ['('])
    (f1 : mapFind e.precedence op1 = some r1) (f2 : mapFind e.precedence op2 = some r2)
    (hr : r2 ≤ r1) :
    e.toPostfix [a, op1, b, op2, c] =
      (e, .ok (a ++ [' '] ++ b ++ [' '] ++ op1 ++ [' '] ++ c ++ [' '] ++ op2 ++ [' '])) := by
  have i1 := index_of_find e op1 r1 f1
  have i2 := index_of_find e op2 r2 f2
  have o1 := isOperator_of_find e op1 r1 f1
  have o2 := isOperator_of_find e op2 r2 f2
  simp [Evaluator.toPostfix, toPostfixLoop, popHigher, drainStack, ha, hb, hc, h1, h2,
    p2, i1, i2, o1, o2, hr]

/-- Conversion of `a op1 b op2 c` when `op2` binds tighter than `op1`: `op1` stays
on the stack below `op2`. -/
theorem toPostfix_chain_keep (e : Evaluator) (a b c op1 op2 : Str) (r1 r2 : Int)
    (ha : headIsDigit a = true) (hb : headIsDigit b = true) (hc : headIsDigit c = true)
    (h1 : headIsDigit op1 = false) (h2 : headIsDigit op2 = false)
    (p1 : op1 ≠ ['(']) (p2 : op2 ≠ ['('])
    (f1 : mapFind e.precedence op1 = some r1) (f2 : mapFind e.precedence op2 = some r2)
    (hr : r1 < r2) :
    e.toPostfix [a, op1, b, op2, c] =
      (e, .ok (a ++ [' '] ++ b ++ [' '] ++ c ++ [' '] ++ op2 ++ [' '] ++ op1 ++ [' '])) := by
  have i1 := index_of_find e op1 r1 f1
  have i2 := index_of_find e op2 r2 f2
  have o1 := isOperator_of_find e op1 r1 f1
  have o2 := isOperator_of_find e op2 r2 f2
  have hr' : ¬ r2 ≤ r1 := not_le.mpr hr
  simp [Evaluator.toPostfix, toPostfixLoop, popHigher, drainStack, ha, hb, hc, h1, h2,
    p1, p2, i1, i2, o1, o2, hr']

/-- The tokens read back from an output of five tokens. -/
theorem splitWs_five (t1 t2 t3 t4 t5 : Str)
    (n1 : t1 ≠ []) (n2 : t2 ≠ []) (n3 : t3 ≠ []) (n4 : t4 ≠ []) (n5 : t5 ≠ [])
    (s1 : t1.all (fun ch => !isspace ch) = true)
    (s2 : t2.all (fun ch => !isspace ch) = true)
    (s3 : t3.all (fun ch => !isspace ch) = true)
    (s4 : t4.all (fun ch => !isspace ch) = true)
    (s5 : t5.all (fun ch => !isspace ch) = true) :
    splitWs (t1 ++ [' '] ++ t2 ++ [' '] ++ t3 ++ [' '] ++ t4 ++ [' '] ++ t5 ++ [' '])
      = [t1, t2, t3, t4, t5] := by
  have e : t1 ++ [' '] ++ t2 ++ [' '] ++ t3 ++ [' '] ++ t4 ++ [' '] ++ t5 ++ [' ']
      = t1 ++ ' ' :: (t2 ++ ' ' :: (t3 ++ ' ' :: (t4 ++ ' ' :: (t5 ++ ' ' :: [])))) := by
    simp
  rw [e, splitWs_token t1 _ n1 s1, splitWs_token t2 _ n2 s2, splitWs_token t3 _ n3 s3,
    splitWs_token t4 _ n4 s4, splitWs_token t5 _ n5 s5, splitWs_nil]

/-- Evaluation of the token sequence `a b op1 c op2`. -/
theorem evaluateLoop_left (e : Evaluator) (a b c op1 op2 : Str)
    (ha : headIsDigit a = true) (hb : headIsDigit b = true) (hc : headIsDigit c = true)
    (h1 : headIsDigit op1 = false) (h2 : headIsDigit op2 = false)
    (o1 : e.isOperator op1 = true) (o2 : e.isOperator op2 = true) :
    evaluateLoop e [] [a, b, op1, c, op2] =
      (stoi a).bind fun va => (stoi b).bind fun vb =>
        (applyOperator op1 va vb).bind fun r => (stoi c).bind fun vc =>
          applyOperator op2 r vc := by
  simp only [evaluateLoop, ha, hb, hc, h1, h2, o1, o2, if_true, Bool.false_eq_true, if_false]
  rcases stoi a with x | va
  · rfl
  rcases stoi b with x | vb
  · rfl
  simp only [Except.bind]
  rcases applyOperator op1 va vb with x | r
  · rfl
  rcases stoi c with x | vc
  · rfl
  simp only [Except.bind]
  rcases applyOperator op2 r vc with x | r2 <;> rfl

/-- Evaluation of the token sequence `a b c op2 op1`. -/
theorem evaluateLoop_right (e : Evaluator) (a b c op1 op2 : Str)
    (ha : headIsDigit a = true) (hb : headIsDigit b = true) (hc : headIsDigit c = true)
    (h1 : headIsDigit op1 = false) (h2 : headIsDigit op2 = false)
    (o1 : e.isOperator op1 = true) (o2 : e.isOperator op2 = true) :
    evaluateLoop e [] [a, b, c, op2, op1] =
      (stoi a).bind fun va => (stoi b).bind fun vb => (stoi c).bind fun vc =>
        (applyOperator op2 vb vc).bind fun r => applyOperator op1 va r := by
  simp only [evaluateLoop, ha, hb, hc, h1, h2, o1, o2, if_true, Bool.false_eq_true, if_false]
  rcases stoi a with x | va
  · rfl
  rcases stoi b with x | vb
  · rfl
  rcases stoi c with x | vc
  · rfl
  simp only [Except.bind]
  rcases applyOperator op2 vb vc with x | r
  · rfl
  simp only [Except.bind]
  rcases applyOperator op1 va r with x | r2 <;> rfl


/-- C4. On every object whose table holds the initial one (a freshly constructed
object, or one used before), for number tokens `a`, `b`, `c` and two keys `op1`,
`op2` of the initial precedence table with the same rank, `toPostfix` turns
`[a, op1, b, op2, c]` into the text `a b op1 c op2 ` (and leaves the table alone),
and `evaluatePostfix` computes that text as `(a op1 b) op2 c`: `applyOperator op1`
on the values of `a` and `b`, then `applyOperator op2` on that result and the value
of `c`. The same holds for `^`: `2^3^2` is `64`, and `8-4-2` is `2`, on a fresh
object and on the object left by `eval` of `(1+2)`. -/
theorem equal_rank_chain_left_assoc (e : Evaluator) (a b c op1 op2 : Str) (r : Int)
    (he : extendsInitial e = true)
    (ha : isNumber a = true) (hb : isNumber b = true) (hc : isNumber c = true)
    (f1 : mapFind Evaluator.new.precedence op1 = some r)
    (f2 : mapFind Evaluator.new.precedence op2 = some r) :
    e.toPostfix [a, op1, b, op2, c] =
      (e, .ok (a ++ [' '] ++ b ++ [' '] ++ op1 ++ [' '] ++ c ++ [' '] ++ op2 ++ [' '])) ∧
    e.evaluatePostfix
        (a ++ [' '] ++ b ++ [' '] ++ op1 ++ [' '] ++ c ++ [' '] ++ op2 ++ [' ']) =
      ((stoi a).bind fun va => (stoi b).bind fun vb =>
        (applyOperator op1 va vb).bind fun x => (stoi c).bind fun vc =>
          applyOperator op2 x vc) ∧
    (Evaluator.new.eval "8-4-2".toList).2 = .ok "2".toList ∧
    (Evaluator.new.eval "2^3^2".toList).2 = .ok "64".toList ∧
    ((Evaluator.new.eval "(1+2)".toList).1.eval "8-4-2".toList).2 = .ok "2".toList ∧
    ((Evaluator.new.eval "(1+2)".toList).1.eval "2^3^2".toList).2 = .ok "64".toList := by
  obtain ⟨d1, _, n1, s1⟩ := table_key_shape op1 r f1
  obtain ⟨d2, p2, n2, s2⟩ := table_key_shape op2 r f2
  have g1 := extendsInitial_find e he op1 r f1
  have g2 := extendsInitial_find e he op2 r f2
  have da := headIsDigit_of_isNumber a ha
  have db := headIsDigit_of_isNumber b hb
  have dc := headIsDigit_of_isNumber c hc
  refine ⟨toPostfix_chain_pop _ a b c op1 op2 r r da db dc d1 d2 p2 g1 g2 le_rfl, ?_,
    by decide, by decide, by decide, by decide⟩
  rw [Evaluator.evaluatePostfix,
    splitWs_five a b op1 c op2 (isNumber_ne_nil a ha) (isNumber_ne_nil b hb) n1
      (isNumber_ne_nil c hc) n2 (isNumber_noSpace a ha) (isNumber_noSpace b hb) s1
      (isNumber_noSpace c hc) s2]
  exact evaluateLoop_left _ a b c op1 op2 da db dc d1 d2
    (isOperator_of_find _ op1 r g1) (isOperator_of_find _ op2 r g2)

/-- C4, at the chains `8 - 4 - 2` on a fresh object and `2 ^ 3 ^ 2` on the object
left by `eval` of `(1+2)`. -/
theorem equal_rank_chain_left_assoc_witness :
    (Evaluator.new.toPostfix ["8".toList, "-".toList, "4".toList, "-".toList, "2".toList]
        = (Evaluator.new, .ok "8 4 - 2 - ".toList) ∧
      Evaluator.new.evaluatePostfix "8 4 - 2 - ".toList = .ok 2) ∧
    ((Evaluator.new.eval "(1+2)".toList).1.toPostfix
        ["2".toList, "^".toList, "3".toList, "^".toList, "2".toList]
        = ((Evaluator.new.eval "(1+2)".toList).1, .ok "2 3 ^ 2 ^ ".toList) ∧
      (Evaluator.new.eval "(1+2)".toList).1.evaluatePostfix "2 3 ^ 2 ^ ".toList
        = .ok 64) :=
  ⟨⟨(equal_rank_chain_left_assoc Evaluator.new "8".toList "4".toList "2".toList
        "-".toList "-".toList 5
        (by decide) (by decide) (by decide) (by decide) (by decide) (by decide)).1,
      by decide⟩,
   ⟨(equal_rank_chain_left_assoc (Evaluator.new.eval "(1+2)".toList).1 "2".toList
        "3".toList "2".toList "^".toList "^".toList 7
        (by decide) (by decide) (by decide) (by decide) (by decide) (by decide)).1,
      by decide⟩⟩

theorem takeWhile_all (ds : Str) (h : ds.all isdigit = true) : ds.takeWhile isdigit = ds := by
  have := takeWhile_digits_append ds [] h rfl
  simpa using this

/-- Function `stoi` on a number literal whose value fits an `int`. -/
theorem stoi_number (a : Str) (ha : isNumber a = true)
    (hr : digitsValue a ≤ 2147483647) : stoi a = .ok (digitsValue a : Int) := by
  have hd := headIsDigit_of_isNumber a ha
  have hall : a.all isdigit = true := by
    simp only [isNumber, Bool.and_eq_true] at ha; exact ha.1
  have hr' : (digitsValue a : Int) ≤ INT_MAX := by
    simp only [INT_MAX]; exact_mod_cast hr
  simp [stoi, hd, takeWhile_all a hall, hr']

/-- Function `stoi` on a number literal whose value does not fit an `int`. -/
theorem stoi_number_large (a : Str) (ha : isNumber a = true)
    (hr : 2147483647 < digitsValue a) : stoi a = .error .stoiOutOfRange := by
  have hd := headIsDigit_of_isNumber a ha
  have hall : a.all isdigit = true := by
    simp only [isNumber, Bool.and_eq_true] at ha; exact ha.1
  have hr' : ¬ (digitsValue a : Int) ≤ INT_MAX := by
    simp only [INT_MAX, not_le]; exact_mod_cast hr
  simp [stoi, hd, takeWhile_all a hall, hr']

theorem headIsDigit_append_false (op rest : Str) (hne : op ≠ [])
    (h : headIsDigit op = false) : headIsDigit (op ++ rest) = false := by
  cases op with
  | nil => exact absurd rfl hne
  | cons ch op' => simpa [headIsDigit] using h

theorem isLogicalOperator_number (a : Str) (h : headIsDigit a = true) :
    isLogicalOperator a = false := by
  cases hl : isLogicalOperator a
  · rfl
  · have hm := (isLogicalOperator_iff a).mp hl
    simp only [logicalSymbols, String.toList, List.mem_cons, List.mem_singleton,
      List.not_mem_nil, or_false] at hm
    rcases hm with rfl | rfl | rfl | rfl | rfl | rfl | rfl | rfl <;>
      simp [headIsDigit, isdigit] at h

/-- An operator of `rankedOperators` in front of a digit is one token. -/
theorem tokenize_ranked_append (op rest : Str) (h : op ∈ rankedOperators)
    (hr : headIsDigit rest = true) : tokenize (op ++ rest) = op :: tokenize rest := by
  simp only [rankedOperators, List.mem_cons, List.mem_singleton, List.not_mem_nil,
    or_false] at h
  rcases h with rfl | rfl | rfl | rfl | rfl | rfl | rfl | rfl | rfl | rfl | rfl | rfl
  · exact tokenize_double _ _ rest (by decide)
  · exact tokenize_double _ _ rest (by decide)
  · exact tokenize_double _ _ rest (by decide)
  · exact tokenize_double _ _ rest (by decide)
  · exact tokenize_single _ rest (by decide) (by decide) hr
  · exact tokenize_single _ rest (by decide) (by decide) hr
  · exact tokenize_single _ rest (by decide) (by decide) hr
  · exact tokenize_single _ rest (by decide) (by decide) hr
  · exact tokenize_single _ rest (by decide) (by decide) hr
  · exact tokenize_single _ rest (by decide) (by decide) hr
  · exact tokenize_single _ rest (by decide) (by decide) hr
  · exact tokenize_single _ rest (by decide) (by decide) hr

/-- The tokens of `a op1 b op2 c` written without spaces. -/
theorem tokenize_chain (a b c op1 op2 : Str)
    (ha : isNumber a = true) (hb : isNumber b = true) (hc : isNumber c = true)
    (m1 : op1 ∈ rankedOperators) (m2 : op2 ∈ rankedOperators)
    (d1 : headIsDigit op1 = false) (d2 : headIsDigit op2 = false)
    (n1 : op1 ≠ []) (n2 : op2 ≠ []) :
    tokenize (a ++ op1 ++ b ++ op2 ++ c) = [a, op1, b, op2, c] := by
  have e : a ++ op1 ++ b ++ op2 ++ c = a ++ (op1 ++ (b ++ (op2 ++ c))) := by simp
  rw [e, tokenize_number_append a _ ha (headIsDigit_append_false op1 _ n1 d1),
    tokenize_ranked_append op1 _ m1
      (headIsDigit_append b _ (headIsDigit_of_isNumber b hb)),
    tokenize_number_append b _ hb (headIsDigit_append_false op2 _ n2 d2),
    tokenize_ranked_append op2 _ m2 (headIsDigit_of_isNumber c hc),
    tokenize_number c hc]

/-- The tokens of `a op b` written without spaces. -/
theorem tokenize_binary (a b op : Str)
    (ha : isNumber a = true) (hb : isNumber b = true)
    (m : op ∈ rankedOperators) (d : headIsDigit op = false) (n : op ≠ []) :
    tokenize (a ++ op ++ b) = [a, op, b] := by
  have e : a ++ op ++ b = a ++ (op ++ b) := by simp
  rw [e, tokenize_number_append a _ ha (headIsDigit_append_false op _ n d),
    tokenize_ranked_append op _ m (headIsDigit_of_isNumber b hb),
    tokenize_number b hb]

/-- Method `eval` once the conversion is known to succeed. -/
theorem eval_of_toPostfix (e e' : Evaluator) (s pf : Str)
    (h : e.toPostfix (tokenize s) = (e', .ok pf)) :
    e.eval s = (e', (e'.evaluatePostfix pf).map
      (render (containsLogicalOperators (tokenize s)))) := by
  unfold Evaluator.eval
  rw [h]
  rcases hr : e'.evaluatePostfix pf with x | r <;> simp [hr, Except.map]


theorem containsLogicalOperators_chain (a b c op1 op2 : Str)
    (ha : headIsDigit a = true) (hb : headIsDigit b = true) (hc : headIsDigit c = true) :
    containsLogicalOperators [a, op1, b, op2, c]
      = (isLogicalOperator op1 || isLogicalOperator op2) := by
  simp only [containsLogicalOperators, isLogicalOperator_number a ha,
    isLogicalOperator_number b hb, isLogicalOperator_number c hc]
  cases isLogicalOperator op1 <;> cases isLogicalOperator op2 <;> rfl

/-- C3. On every object whose table holds the initial one (a freshly constructed
object, or one used before), for number literals `a`, `b`, `c` whose values fit an
`int` and operators `lo`, `hi` among `||`, `&&`, `==`, `!=`, `<`, `>`, `+`, `-`,
`*`, `/`, `%`, `^` (ranks 1, 2, 3, 3, 4, 4, 5, 5, 6, 6, 6, 7) with
`rank hi > rank lo`: `eval` of `a lo b hi c` applies `hi` to `b` and `c` first and
then `lo` to `a` and that result, and `eval` of `a hi b lo c` applies `hi` to `a`
and `b` first and then `lo` to that result and `c`; the text is the rendering of
that integer, and the table is left as it was. -/
theorem precedence_orders_operators (e : Evaluator) (a b c lo hi : Str) (rlo rhi : Int)
    (he : extendsInitial e = true)
    (ha : isNumber a = true) (hb : isNumber b = true) (hc : isNumber c = true)
    (ra : digitsValue a ≤ 2147483647) (rb : digitsValue b ≤ 2147483647)
    (rc : digitsValue c ≤ 2147483647)
    (mlo : lo ∈ rankedOperators) (mhi : hi ∈ rankedOperators)
    (flo : mapFind Evaluator.new.precedence lo = some rlo)
    (fhi : mapFind Evaluator.new.precedence hi = some rhi)
    (h : rlo < rhi) :
    rankedOperators.map (mapFind Evaluator.new.precedence)
      = [some 1, some 2, some 3, some 3, some 4, some 4, some 5, some 5,
         some 6, some 6, some 6, some 7] ∧
    e.eval (a ++ lo ++ b ++ hi ++ c) =
      (e,
        ((applyOperator hi (digitsValue b) (digitsValue c)).bind fun x =>
            applyOperator lo (digitsValue a) x).map
          (render (isLogicalOperator lo || isLogicalOperator hi))) ∧
    e.eval (a ++ hi ++ b ++ lo ++ c) =
      (e,
        ((applyOperator hi (digitsValue a) (digitsValue b)).bind fun x =>
            applyOperator lo x (digitsValue c)).map
          (render (isLogicalOperator hi || isLogicalOperator lo))) := by
  obtain ⟨dlo, plo, nlo, slo⟩ := table_key_shape lo rlo flo
  obtain ⟨dhi, phi, nhi, shi⟩ := table_key_shape hi rhi fhi
  have glo := extendsInitial_find e he lo rlo flo
  have ghi := extendsInitial_find e he hi rhi fhi
  have da := headIsDigit_of_isNumber a ha
  have db := headIsDigit_of_isNumber b hb
  have dc := headIsDigit_of_isNumber c hc
  have olo := isOperator_of_find _ lo rlo glo
  have ohi := isOperator_of_find _ hi rhi ghi
  refine ⟨by decide, ?_, ?_⟩
  · have tok := tokenize_chain a b c lo hi ha hb hc mlo mhi dlo dhi nlo nhi
    have conv := toPostfix_chain_keep e a b c lo hi rlo rhi da db dc dlo dhi
      plo phi glo ghi h
    rw [eval_of_toPostfix _ _ _ _ (by rw [tok]; exact conv), tok,
      containsLogicalOperators_chain a b c lo hi da db dc, Evaluator.evaluatePostfix,
      splitWs_five a b c hi lo (isNumber_ne_nil a ha) (isNumber_ne_nil b hb)
        (isNumber_ne_nil c hc) nhi nlo (isNumber_noSpace a ha) (isNumber_noSpace b hb)
        (isNumber_noSpace c hc) shi slo,
      evaluateLoop_right _ a b c lo hi da db dc dlo dhi olo ohi,
      stoi_number a ha ra, stoi_number b hb rb, stoi_number c hc rc]
    rfl
  · have tok := tokenize_chain a b c hi lo ha hb hc mhi mlo dhi dlo nhi nlo
    have conv := toPostfix_chain_pop e a b c hi lo rhi rlo da db dc dhi dlo
      plo ghi glo (le_of_lt h)
    rw [eval_of_toPostfix _ _ _ _ (by rw [tok]; exact conv), tok,
      containsLogicalOperators_chain a b c hi lo da db dc, Evaluator.evaluatePostfix,
      splitWs_five a b hi c lo (isNumber_ne_nil a ha) (isNumber_ne_nil b hb) nhi
        (isNumber_ne_nil c hc) nlo (isNumber_noSpace a ha) (isNumber_noSpace b hb) shi
        (isNumber_noSpace c hc) slo,
      evaluateLoop_left _ a b c hi lo da db dc dhi dlo ohi olo,
      stoi_number a ha ra, stoi_number b hb rb, stoi_number c hc rc]
    rfl

/-- C3, at `2+3*4` (which is `14`, not `20`) and `2*3+4` on a fresh object, and at
`2-3*4` on the object left by `eval` of `(1+2)`. -/
theorem precedence_orders_operators_witness :
    (Evaluator.new.eval "2+3*4".toList = (Evaluator.new, .ok "14".toList) ∧
      Evaluator.new.eval "2*3+4".toList = (Evaluator.new, .ok "10".toList)) ∧
    (Evaluator.new.eval "(1+2)".toList).1.eval "2-3*4".toList
      = ((Evaluator.new.eval "(1+2)".toList).1, .ok "-10".toList) :=
  ⟨(precedence_orders_operators Evaluator.new "2".toList "3".toList "4".toList
      "+".toList "*".toList 5 6 (by decide)
      (by decide) (by decide) (by decide) (by decide) (by decide) (by decide)
      (by decide) (by decide) (by decide) (by decide) (by decide)).2,
   (precedence_orders_operators (Evaluator.new.eval "(1+2)".toList).1 "2".toList
      "3".toList "4".toList "-".toList "*".toList 5 6 (by decide)
      (by decide) (by decide) (by decide) (by decide) (by decide) (by decide)
      (by decide) (by decide) (by decide) (by decide) (by decide)).2.1⟩

/-! ## Expressions `a op b` -/

theorem ranked_find (op : Str) (h : op ∈ rankedOperators) :
    ∃ r, mapFind Evaluator.new.precedence op = some r := by
  simp only [rankedOperators, List.mem_cons, List.mem_singleton, List.not_mem_nil,
    or_false] at h
  rcases h with rfl | rfl | rfl | rfl | rfl | rfl | rfl | rfl | rfl | rfl | rfl | rfl
  · exact ⟨1, by decide⟩
  · exact ⟨2, by decide⟩
  · exact ⟨3, by decide⟩
  · exact ⟨3, by decide⟩
  · exact ⟨4, by decide⟩
  · exact ⟨4, by decide⟩
  · exact ⟨5, by decide⟩
  · exact ⟨5, by decide⟩
  · exact ⟨6, by decide⟩
  · exact ⟨6, by decide⟩
  · exact ⟨6, by decide⟩
  · exact ⟨7, by decide⟩

/-- Conversion of `a op b`. -/
theorem toPostfix_binary (e : Evaluator) (a b op : Str)
    (ha : headIsDigit a = true) (hb : headIsDigit b = true)
    (h1 : headIsDigit op = false) (p1 : op ≠ ['('])
    (o1 : e.isOperator op = true) :
    e.toPostfix [a, op, b] = (e, .ok (a ++ [' '] ++ b ++ [' '] ++ op ++ [' '])) := by
  simp [Evaluator.toPostfix, toPostfixLoop, popHigher, drainStack, ha, hb, h1, p1, o1]

theorem splitWs_three (t1 t2 t3 : Str) (n1 : t1 ≠ []) (n2 : t2 ≠ []) (n3 : t3 ≠ [])
    (s1 : t1.all (fun ch => !isspace ch) = true)
    (s2 : t2.all (fun ch => !isspace ch) = true)
    (s3 : t3.all (fun ch => !isspace ch) = true) :
    splitWs (t1 ++ [' '] ++ t2 ++ [' '] ++ t3 ++ [' ']) = [t1, t2, t3] := by
  have e : t1 ++ [' '] ++ t2 ++ [' '] ++ t3 ++ [' ']
      = t1 ++ ' ' :: (t2 ++ ' ' :: (t3 ++ ' ' :: [])) := by
    simp
  rw [e, splitWs_token t1 _ n1 s1, splitWs_token t2 _ n2 s2, splitWs_token t3 _ n3 s3,
    splitWs_nil]

/-- Evaluation of the token sequence `a b op`. -/
theorem evaluateLoop_binary (e : Evaluator) (a b op : Str)
    (ha : headIsDigit a = true) (hb : headIsDigit b = true)
    (h1 : headIsDigit op = false) (o1 : e.isOperator op = true) :
    evaluateLoop e [] [a, b, op] =
      (stoi a).bind fun va => (stoi b).bind fun vb => applyOperator op va vb := by
  simp only [evaluateLoop, ha, hb, h1, o1, if_true, Bool.false_eq_true, if_false]
  rcases stoi a with x | va
  · rfl
  rcases stoi b with x | vb
  · rfl
  simp only [Except.bind]
  rcases applyOperator op va vb with x | r <;> rfl

/-- Method `eval` on `a op b`, on an object whose table holds the initial one:
the two literals are converted by `stoi`, then `applyOperator` is called once. -/
theorem eval_binary (e : Evaluator) (a b op : Str) (he : extendsInitial e = true)
    (ha : isNumber a = true) (hb : isNumber b = true) (m : op ∈ rankedOperators) :
    e.eval (a ++ op ++ b) =
      (e,
        ((stoi a).bind fun va => (stoi b).bind fun vb => applyOperator op va vb).map
          (render (isLogicalOperator op))) := by
  obtain ⟨r, f⟩ := ranked_find op m
  obtain ⟨d, p, n, s⟩ := table_key_shape op r f
  have da := headIsDigit_of_isNumber a ha
  have db := headIsDigit_of_isNumber b hb
  have o := isOperator_of_find _ op r (extendsInitial_find e he op r f)
  have tok := tokenize_binary a b op ha hb m d n
  have conv := toPostfix_binary e a b op da db d p o
  have cl : containsLogicalOperators [a, op, b] = isLogicalOperator op := by
    simp only [containsLogicalOperators, isLogicalOperator_number a da,
      isLogicalOperator_number b db]
    cases isLogicalOperator op <;> rfl
  rw [eval_of_toPostfix _ _ _ _ (by rw [tok]; exact conv), tok, cl,
    Evaluator.evaluatePostfix,
    splitWs_three a b op (isNumber_ne_nil a ha) (isNumber_ne_nil b hb) n
      (isNumber_noSpace a ha) (isNumber_noSpace b hb) s,
    evaluateLoop_binary _ a b op da db d o]

/-- The quotient truncated toward zero: the quotient of the absolute values,
with the sign of the product of the operands. -/
theorem tdiv_eq_sign_mul (a b : Int) :
    Int.tdiv a b = Int.sign a * Int.sign b * ((a.natAbs / b.natAbs : Nat) : Int) := by
  cases a with
  | ofNat m =>
    cases b with
    | ofNat n =>
      rcases m with _ | m <;> rcases n with _ | n
      · simp [Int.tdiv]
      · simp [Int.tdiv]
      · simp [Int.tdiv]
      · simp [Int.tdiv, Int.sign]
        norm_cast
    | negSucc n =>
      rcases m with _ | m
      · simp [Int.tdiv]
      · simp [Int.tdiv, Int.sign]
        norm_cast
  | negSucc m =>
    cases b with
    | ofNat n =>
      rcases n with _ | n
      · simp [Int.tdiv]
      · simp [Int.tdiv, Int.sign]
        norm_cast
    | negSucc n =>
      simp [Int.tdiv, Int.sign]

/-! ## Division -/

/-- C5, as stated, fails on a literal that does not fit an `int`: in
`2147483648/0` and `2147483648/1` the conversion of the first literal by `stoi`
throws `std::out_of_range` before any division is attempted. -/
theorem division_large_literal_out_of_range :
    isNumber "2147483648".toList = true ∧ digitsValue "0".toList = 0 ∧
    (Evaluator.new.eval "2147483648/0".toList).2 = .error .stoiOutOfRange ∧
    (Evaluator.new.eval "2147483648/1".toList).2 = .error .stoiOutOfRange := by
  decide

/-- C5, amended. For all integers `a` and `b`, `applyOperator "/" a b` throws
"Division by zero" exactly when `b = 0`; for `b ≠ 0`, `INT_MIN / -1` apart, it
returns the quotient truncated toward zero (the quotient of the absolute values
with the sign of `a * b`). For number literals `a` and `b` whose values fit an
`int`, `eval` of `a/b`, on every object whose table holds the initial one (a
freshly constructed object, or one used before), fails with "Division by zero"
when the value of `b` is `0` and otherwise returns the decimal text of the
truncated quotient. `7/2` is `3`, `7/0` fails, `(0-7)/2` is `-3`. -/
theorem division_truncates_or_fails :
    (∀ a b : Int, applyOperator "/".toList a b = .error .divisionByZero ↔ b = 0) ∧
    (∀ a b : Int, b ≠ 0 → ¬ (a = INT_MIN ∧ b = -1) →
      applyOperator "/".toList a b
        = .ok (Int.sign a * Int.sign b * ((a.natAbs / b.natAbs : Nat) : Int))) ∧
    (∀ (e : Evaluator) (a b : Str), extendsInitial e = true →
      isNumber a = true → isNumber b = true →
      digitsValue a ≤ 2147483647 → digitsValue b ≤ 2147483647 →
      e.eval (a ++ "/".toList ++ b) =
        (e,
          if digitsValue b = 0 then .error .divisionByZero
          else .ok (to_string ((digitsValue a / digitsValue b : Nat) : Int)))) ∧
    (Evaluator.new.eval "7/2".toList).2 = .ok "3".toList ∧
    (Evaluator.new.eval "7/0".toList).2 = .error .divisionByZero ∧
    (Evaluator.new.eval "(0-7)/2".toList).2 = .ok "-3".toList ∧
    ((Evaluator.new.eval "(1+2)".toList).1.eval "7/2".toList).2 = .ok "3".toList ∧
    ((Evaluator.new.eval "(1+2)".toList).1.eval "7/0".toList).2
      = .error .divisionByZero := by
  refine ⟨?_, ?_, ?_, by decide, by decide, by decide, by decide, by decide⟩
  · intro a b
    by_cases hb : b = 0
    · simp [applyOperator, hb]
    · by_cases hm : a = INT_MIN ∧ b = -1 <;> simp [applyOperator, hb, hm]
  · intro a b hb hm
    simp only [applyOperator, String.toList]
    simp [hb, hm, tdiv_eq_sign_mul]
  · intro e a b he ha hb ra rb
    rw [eval_binary e a b _ he ha hb (by decide), stoi_number a ha ra,
      stoi_number b hb rb]
    by_cases hz : digitsValue b = 0
    · simp [Except.bind, Except.map, applyOperator, hz]
    · have hz' : ¬ ((digitsValue b : Int) = 0) := by exact_mod_cast hz
      have hmin : ¬ ((digitsValue a : Int) = INT_MIN ∧ (digitsValue b : Int) = -1) := by
        rintro ⟨_, h1⟩
        have : (0 : Int) ≤ (digitsValue b : Int) := Int.ofNat_nonneg _
        omega
      have hq : Int.tdiv (digitsValue a : Int) (digitsValue b : Int)
          = ((digitsValue a / digitsValue b : Nat) : Int) := by
        norm_cast
      simp only [Except.bind, Except.map, applyOperator, String.toList]
      simp [hz, hz', hmin, hq, render, isLogicalOperator]

/-- C5 amended, at the literals `7` and `2` on a fresh object, and at `7` and `0`
on the object left by `eval` of `(1+2)`. -/
theorem division_truncates_or_fails_witness :
    Evaluator.new.eval ("7".toList ++ "/".toList ++ "2".toList)
      = (Evaluator.new, .ok "3".toList) ∧
    (Evaluator.new.eval "(1+2)".toList).1.eval ("7".toList ++ "/".toList ++ "0".toList)
      = ((Evaluator.new.eval "(1+2)".toList).1, .error .divisionByZero) :=
  ⟨division_truncates_or_fails.2.2.1 Evaluator.new "7".toList "2".toList (by decide)
      (by decide) (by decide) (by decide) (by decide),
   division_truncates_or_fails.2.2.1 (Evaluator.new.eval "(1+2)".toList).1 "7".toList
      "0".toList (by decide) (by decide) (by decide) (by decide) (by decide)⟩

/-! ## Logical AND and OR -/

/-- C10, as stated, fails on a literal that does not fit an `int`: in
`2147483648&&1` and `0||2147483648` the conversion of the large literal by `stoi`
throws `std::out_of_range`, and no text is returned. -/
theorem logical_large_literal_out_of_range :
    isNumber "2147483648".toList = true ∧ isNumber "1".toList = true ∧
    (Evaluator.new.eval "2147483648&&1".toList).2 = .error .stoiOutOfRange ∧
    (Evaluator.new.eval "0||2147483648".toList).2 = .error .stoiOutOfRange := by
  decide

/-- C10, amended. For all integers `a` and `b`, `applyOperator "&&" a b` is `1`
when both are non-zero and `0` otherwise, and `applyOperator "||" a b` is `1`
when at least one is non-zero and `0` otherwise. For number literals `a` and `b`
whose values fit an `int`, on every object whose table holds the initial one (a
freshly constructed object, or one used before), `eval` of `a&&b` returns `true`
if both values are non-zero and `false` otherwise, and `eval` of `a||b` returns
`true` if at least one value is non-zero and `false` otherwise. `1&&0` is
`false`, `1||0` is `true`, `2&&3` is `true`. -/
theorem logical_and_or_truthy :
    (∀ a b : Int, applyOperator "&&".toList a b
        = .ok (if a ≠ 0 ∧ b ≠ 0 then 1 else 0)) ∧
    (∀ a b : Int, applyOperator "||".toList a b
        = .ok (if a ≠ 0 ∨ b ≠ 0 then 1 else 0)) ∧
    (∀ (e : Evaluator) (a b : Str), extendsInitial e = true →
      isNumber a = true → isNumber b = true →
      digitsValue a ≤ 2147483647 → digitsValue b ≤ 2147483647 →
      e.eval (a ++ "&&".toList ++ b) =
        (e,
          .ok (if digitsValue a ≠ 0 ∧ digitsValue b ≠ 0 then "true".toList
               else "false".toList)) ∧
      e.eval (a ++ "||".toList ++ b) =
        (e,
          .ok (if digitsValue a ≠ 0 ∨ digitsValue b ≠ 0 then "true".toList
               else "false".toList))) ∧
    (Evaluator.new.eval "1&&0".toList).2 = .ok "false".toList ∧
    (Evaluator.new.eval "1||0".toList).2 = .ok "true".toList ∧
    (Evaluator.new.eval "2&&3".toList).2 = .ok "true".toList ∧
    ((Evaluator.new.eval "(1+2)".toList).1.eval "1&&0".toList).2 = .ok "false".toList ∧
    ((Evaluator.new.eval "(1+2)".toList).1.eval "1||0".toList).2 = .ok "true".toList := by
  have hand : ∀ a b : Int, applyOperator "&&".toList a b
      = .ok (if a ≠ 0 ∧ b ≠ 0 then 1 else 0) := by
    intro a b
    simp only [applyOperator, String.toList]
    by_cases ha : a = 0 <;> by_cases hb : b = 0 <;> simp [boolToInt, ha, hb]
  have hor : ∀ a b : Int, applyOperator "||".toList a b
      = .ok (if a ≠ 0 ∨ b ≠ 0 then 1 else 0) := by
    intro a b
    simp only [applyOperator, String.toList]
    by_cases ha : a = 0 <;> by_cases hb : b = 0 <;> simp [boolToInt, ha, hb]
  refine ⟨hand, hor, ?_, by decide, by decide, by decide, by decide, by decide⟩
  intro e a b he ha hb ra rb
  constructor
  · rw [eval_binary e a b _ he ha hb (by decide), stoi_number a ha ra,
      stoi_number b hb rb]
    simp only [Except.bind, hand, Except.map]
    by_cases za : digitsValue a = 0 <;> by_cases zb : digitsValue b = 0 <;>
      simp [za, zb, render, isLogicalOperator]
  · rw [eval_binary e a b _ he ha hb (by decide), stoi_number a ha ra,
      stoi_number b hb rb]
    simp only [Except.bind, hor, Except.map]
    by_cases za : digitsValue a = 0 <;> by_cases zb : digitsValue b = 0 <;>
      simp [za, zb, render, isLogicalOperator]

/-- C10 amended, at the literals `2` and `3`, on the object left by `eval` of
`(1+2)`. -/
theorem logical_and_or_truthy_witness :
    (Evaluator.new.eval "(1+2)".toList).1.eval ("2".toList ++ "&&".toList ++ "3".toList)
      = ((Evaluator.new.eval "(1+2)".toList).1, .ok "true".toList) ∧
    (Evaluator.new.eval "(1+2)".toList).1.eval ("2".toList ++ "||".toList ++ "3".toList)
      = ((Evaluator.new.eval "(1+2)".toList).1, .ok "true".toList) :=
  logical_and_or_truthy.2.2.1 (Evaluator.new.eval "(1+2)".toList).1 "2".toList "3".toList
    (by decide) (by decide) (by decide) (by decide) (by decide)

/-! ## Modulus -/

theorem natAbs_tmod_eq (a b : Int) : (Int.tmod a b).natAbs = a.natAbs % b.natAbs := by
  cases a <;> cases b <;> simp [Int.tmod] <;> norm_cast

theorem tmod_nonpos (a b : Int) (ha : a < 0) : Int.tmod a b ≤ 0 := by
  cases a with
  | ofNat m => exact absurd ha (by simp)
  | negSucc m =>
    cases b with
    | ofNat k =>
      simp only [Int.tmod, Int.ofNat_eq_coe, Left.neg_nonpos_iff]
      exact Int.ofNat_nonneg _
    | negSucc k =>
      simp only [Int.tmod, Int.ofNat_eq_coe, Left.neg_nonpos_iff]
      exact Int.ofNat_nonneg _

theorem tmod_zero_or_sign (a b : Int) :
    Int.tmod a b = 0 ∨ Int.sign (Int.tmod a b) = Int.sign a := by
  by_cases h : Int.tmod a b = 0
  · exact Or.inl h
  · right
    rcases lt_trichotomy a 0 with ha | ha | ha
    · have h1 := tmod_nonpos a b ha
      rw [Int.sign_eq_neg_one_of_neg ha, Int.sign_eq_neg_one_of_neg (by omega)]
    · subst ha; simp at h
    · have h1 := Int.tmod_nonneg b (a := a) (by omega)
      rw [Int.sign_eq_one_of_pos ha, Int.sign_eq_one_of_pos (by omega)]

/-- C11. For all integers `a` and `b` with `b ≠ 0`, `INT_MIN % -1` apart,
`applyOperator "%" a b` returns an `r` with `a = q * b + r`, where `q` is the
quotient truncated toward zero (the quotient of the absolute values with the sign
of `a * b`), `|r| < |b|`, and `r` is zero or has the sign of `a`. `5%2` is `1`
and `(0-5)%2` is `-1`. -/
theorem modulus_truncating :
    (∀ a b : Int, b ≠ 0 → ¬ (a = INT_MIN ∧ b = -1) →
      ∃ r, applyOperator "%".toList a b = .ok r ∧
        a = Int.sign a * Int.sign b * ((a.natAbs / b.natAbs : Nat) : Int) * b + r ∧
        r.natAbs < b.natAbs ∧ (r = 0 ∨ Int.sign r = Int.sign a)) ∧
    (Evaluator.new.eval "5%2".toList).2 = .ok "1".toList ∧
    (Evaluator.new.eval "(0-5)%2".toList).2 = .ok "-1".toList := by
  refine ⟨?_, by decide, by decide⟩
  intro a b hb hm
  refine ⟨Int.tmod a b, ?_, ?_, ?_, tmod_zero_or_sign a b⟩
  · simp only [applyOperator, String.toList]
    simp [hb, hm]
  · rw [← tdiv_eq_sign_mul]
    have := Int.tdiv_add_tmod a b
    linarith [Int.mul_comm (a.tdiv b) b]
  · rw [natAbs_tmod_eq]
    exact Nat.mod_lt _ (Int.natAbs_pos.mpr hb)

/-- C11, at `-5` and `2`: the remainder is `-1`. -/
theorem modulus_truncating_witness :
    ∃ r, applyOperator "%".toList (-5) 2 = .ok r ∧
      (-5 : Int) = Int.sign (-5) * Int.sign 2 * (((-5 : Int).natAbs / (2 : Int).natAbs : Nat) : Int) * 2 + r ∧
      r.natAbs < (2 : Int).natAbs ∧ (r = 0 ∨ Int.sign r = Int.sign (-5)) :=
  modulus_truncating.1 (-5) 2 (by decide) (by decide)

/-- C12. The branch of `applyOperator` for `%` divides without a test of the
divisor, unlike the branch for `/`: `5 % 0` is the divide fault, not an integer and
not the "Division by zero" exception, and so is `eval` of `5%0`; `5 / 0` throws
"Division by zero". -/
theorem modulus_by_zero_unguarded :
    applyOperator "%".toList 5 0 = .error .arithmeticTrap ∧
    (Evaluator.new.eval "5%0".toList).2 = .error .arithmeticTrap ∧
    applyOperator "/".toList 5 0 = .error .divisionByZero := by
  decide

/-- C13. After `eval` of `(1+2)` on a freshly constructed object, which returns
`3`, the precedence table has the additional key `(` with rank `0`: `isOperator`
answers `false` for `(` before the call and `true` after it. -/
theorem eval_modifies_precedence :
    Evaluator.new.isOperator "(".toList = false ∧
    (Evaluator.new.eval "(1+2)".toList).2 = .ok "3".toList ∧
    (Evaluator.new.eval "(1+2)".toList).1.isOperator "(".toList = true ∧
    (Evaluator.new.eval "(1+2)".toList).1.precedence
      = Evaluator.new.precedence ++ [("(".toList, 0)] := by
  decide

/-- C18. The keys `!`, `++` and `--` of the precedence table have no branch in
`applyOperator`, and `eval` of `1!2` fails with "Unknown operator: !". -/
theorem eval_unknown_operator :
    Evaluator.new.isOperator "!".toList = true ∧
    Evaluator.new.isOperator "++".toList = true ∧
    Evaluator.new.isOperator "--".toList = true ∧
    (∀ a b : Int, applyOperator "!".toList a b = .error (.unknownOperator "!".toList)) ∧
    (∀ a b : Int, applyOperator "++".toList a b = .error (.unknownOperator "++".toList)) ∧
    (∀ a b : Int, applyOperator "--".toList a b = .error (.unknownOperator "--".toList)) ∧
    (Evaluator.new.eval "1!2".toList).2 = .error (.unknownOperator "!".toList) := by
  refine ⟨by decide, by decide, by decide, ?_, ?_, ?_, by decide⟩ <;>
    (intro a b; simp [applyOperator])


/-! ## What the tokenizer emits -/

theorem isTwoCharOperator_cases (c n : Char) (h : isTwoCharOperator c n = true) :
    [c, n] = ['&', '&'] ∨ [c, n] = ['|', '|'] ∨ [c, n] = ['=', '='] ∨
      [c, n] = ['!', '='] := by
  simp only [isTwoCharOperator, Bool.or_eq_true, Bool.and_eq_true, decide_eq_true_eq] at h
  rcases h with ((⟨rfl, rfl⟩ | ⟨rfl, rfl⟩) | ⟨rfl, rfl⟩) | ⟨rfl, rfl⟩ <;> simp

/-- Case analysis on where a token of a non-empty expression comes from. -/
theorem tokenize_mem_cons (ch : Char) (rest t : Str) (h : t ∈ tokenize (ch :: rest)) :
    (isspace ch = true ∧ t ∈ tokenize rest) ∨
    (isspace ch = false ∧ isdigit ch = true ∧
      (t = ch :: rest.takeWhile isdigit ∨ t ∈ tokenize (rest.dropWhile isdigit))) ∨
    (isspace ch = false ∧ isdigit ch = false ∧
      ((t = [ch] ∧ (rest = [] ∨ ∃ next rest', rest = next :: rest' ∧
          isTwoCharOperator ch next = false)) ∨
        (t ∈ tokenize rest ∧ ∃ next rest', rest = next :: rest' ∧
          isTwoCharOperator ch next = false) ∨
        ∃ next rest', rest = next :: rest' ∧ isTwoCharOperator ch next = true ∧
          (t = [ch, next] ∨ t ∈ tokenize rest'))) := by
  rw [tokenize_cons] at h
  by_cases hs : isspace ch = true
  · left; simp only [hs, if_true] at h; exact ⟨hs, h⟩
  · have hs' : isspace ch = false := by simpa using hs
    simp only [hs', Bool.false_eq_true, if_false] at h
    by_cases hd : isdigit ch = true
    · right; left
      simp only [hd, if_true, List.mem_cons] at h
      exact ⟨hs', hd, h⟩
    · have hd' : isdigit ch = false := by simpa using hd
      simp only [hd', Bool.false_eq_true, if_false] at h
      right; right
      refine ⟨hs', hd', ?_⟩
      cases rest with
      | nil =>
        simp only [List.mem_singleton] at h
        exact Or.inl ⟨h, Or.inl rfl⟩
      | cons next rest' =>
        simp only at h
        by_cases h2 : isTwoCharOperator ch next = true
        · simp only [h2, if_true, List.mem_cons] at h
          exact Or.inr (Or.inr ⟨next, rest', rfl, h2, h⟩)
        · have h2' : isTwoCharOperator ch next = false := by simpa using h2
          simp only [h2', Bool.false_eq_true, if_false, List.mem_cons] at h
          rcases h with h | h
          · exact Or.inl ⟨h, Or.inr ⟨next, rest', rfl, h2'⟩⟩
          · exact Or.inr (Or.inl ⟨h, next, rest', rfl, h2'⟩)

theorem dropWhile_length_le (rest : Str) : (rest.dropWhile isdigit).length ≤ rest.length :=
  (List.dropWhile_sublist _).length_le

theorem takeWhile_all_digits (rest : Str) : (rest.takeWhile isdigit).all isdigit = true := by
  simp only [List.all_eq_true]
  intro c hc
  exact List.mem_takeWhile_imp hc

/-- Every token is a number literal, one of `&&`, `||`, `==`, `!=`, or a single
character that is neither a digit nor whitespace. -/
theorem tokenize_shape (n : Nat) : ∀ (s : Str), s.length ≤ n → ∀ t ∈ tokenize s,
    isNumber t = true ∨
    t ∈ ["&&".toList, "||".toList, "==".toList, "!=".toList] ∨
    ∃ c, t = [c] ∧ isdigit c = false ∧ isspace c = false := by
  induction n with
  | zero =>
    intro s hs t ht
    have : s = [] := List.length_eq_zero.mp (Nat.le_zero.mp hs)
    subst this
    simp [tokenize_nil] at ht
  | succ n ih =>
    intro s hs t ht
    cases s with
    | nil => simp [tokenize_nil] at ht
    | cons ch rest =>
      simp only [List.length_cons, Nat.add_le_add_iff_right] at hs
      rcases tokenize_mem_cons ch rest t ht with ⟨_, h⟩ | ⟨_, hd, h | h⟩ |
        ⟨hs', hd, ⟨h, _⟩ | ⟨h, _⟩ | ⟨next, rest', hr, h2, h | h⟩⟩
      · exact ih rest hs t h
      · left
        subst h
        simp [isNumber, hd, takeWhile_all_digits rest]
      · exact ih _ ((dropWhile_length_le rest).trans hs) t h
      · exact Or.inr (Or.inr ⟨ch, h, hd, hs'⟩)
      · exact ih rest hs t h
      · right; left
        subst h
        simp only [String.toList, List.mem_cons, List.mem_singleton, List.not_mem_nil,
          or_false]
        exact isTwoCharOperator_cases ch next h2
      · subst hr
        simp only [List.length_cons] at hs
        exact ih rest' (by omega) t h


/-- Every token is a run of adjacent characters of the expression. -/
theorem tokenize_infix (n : Nat) : ∀ (s : Str), s.length ≤ n → ∀ t ∈ tokenize s,
    List.IsInfix t s := by
  induction n with
  | zero =>
    intro s hs t ht
    have : s = [] := List.length_eq_zero.mp (Nat.le_zero.mp hs)
    subst this
    simp [tokenize_nil] at ht
  | succ n ih =>
    intro s hs t ht
    cases s with
    | nil => simp [tokenize_nil] at ht
    | cons ch rest =>
      simp only [List.length_cons, Nat.add_le_add_iff_right] at hs
      have up : ∀ u : Str, List.IsInfix u rest → List.IsInfix u (ch :: rest) :=
        fun u hu => hu.trans (List.suffix_cons ch rest).isInfix
      rcases tokenize_mem_cons ch rest t ht with ⟨_, h⟩ | ⟨_, hd, h | h⟩ |
        ⟨hs', hd, ⟨h, _⟩ | ⟨h, _⟩ | ⟨next, rest', hr, h2, h | h⟩⟩
      · exact up t (ih rest hs t h)
      · subst h
        exact ((List.prefix_cons_inj ch).mpr (List.takeWhile_prefix isdigit)).isInfix
      · exact up t ((ih _ ((dropWhile_length_le rest).trans hs) t h).trans
          (List.dropWhile_suffix isdigit).isInfix)
      · subst h
        exact (List.prefix_iff_eq_append.mpr rfl : List.IsPrefix [ch] (ch :: rest)).isInfix
      · exact up t (ih rest hs t h)
      · subst h; subst hr
        exact (List.prefix_iff_eq_append.mpr rfl :
          List.IsPrefix [ch, next] (ch :: next :: rest')).isInfix
      · subst hr
        simp only [List.length_cons] at hs
        exact up t ((ih rest' (by omega) t h).trans (List.suffix_cons next rest').isInfix)

theorem filter_takeWhile_digits (rest : Str) :
    (rest.takeWhile isdigit).filter (fun c => !isspace c) = rest.takeWhile isdigit := by
  rw [List.filter_eq_self]
  intro c hc
  simp [isdigit_not_isspace c (List.mem_takeWhile_imp hc)]

/-- The tokens, concatenated, are the expression without its whitespace. -/
theorem tokenize_join (n : Nat) : ∀ (s : Str), s.length ≤ n →
    (tokenize s).flatten = s.filter (fun c => !isspace c) := by
  induction n with
  | zero =>
    intro s hs
    have : s = [] := List.length_eq_zero.mp (Nat.le_zero.mp hs)
    subst this
    rfl
  | succ n ih =>
    intro s hs
    cases s with
    | nil => rfl
    | cons ch rest =>
      simp only [List.length_cons, Nat.add_le_add_iff_right] at hs
      rw [tokenize_cons]
      by_cases hsp : isspace ch = true
      · simp [hsp, ih rest hs]
      · have hsp' : isspace ch = false := by simpa using hsp
        simp only [hsp', Bool.false_eq_true, if_false]
        by_cases hd : isdigit ch = true
        · have key : rest.filter (fun c => !isspace c)
              = rest.takeWhile isdigit
                ++ (rest.dropWhile isdigit).filter (fun c => !isspace c) := by
            conv_lhs => rw [← List.takeWhile_append_dropWhile isdigit rest]
            rw [List.filter_append, filter_takeWhile_digits]
          simp only [hd, if_true, List.flatten_cons,
            ih _ ((dropWhile_length_le rest).trans hs)]
          simp [hsp', key]
        · have hd' : isdigit ch = false := by simpa using hd
          simp only [hd', Bool.false_eq_true, if_false]
          cases rest with
          | nil => simp [hsp']
          | cons next rest' =>
            simp only [List.length_cons] at hs
            by_cases h2 : isTwoCharOperator ch next = true
            · have hn : isspace next = false := by
                have hc : next = '&' ∨ next = '|' ∨ next = '=' := by
                  simp only [isTwoCharOperator, Bool.or_eq_true, Bool.and_eq_true,
                    decide_eq_true_eq] at h2
                  tauto
                rcases hc with rfl | rfl | rfl <;> decide
              simp [h2, hsp', hn, ih rest' (by omega)]
            · have h2' : isTwoCharOperator ch next = false := by simpa using h2
              simp [h2', hsp', ih (next :: rest') (by simpa using hs)]


/-- A token has no whitespace and is not empty. -/
theorem tokenize_token_solid (s t : Str) (h : t ∈ tokenize s) :
    t ≠ [] ∧ t.all (fun ch => !isspace ch) = true := by
  rcases tokenize_shape s.length s le_rfl t h with hn | hm | ⟨c, rfl, _, hc⟩
  · exact ⟨isNumber_ne_nil t hn, isNumber_noSpace t hn⟩
  · simp only [String.toList, List.mem_cons, List.mem_singleton, List.not_mem_nil,
      or_false] at hm
    rcases hm with rfl | rfl | rfl | rfl <;> exact ⟨by simp, by decide⟩
  · exact ⟨by simp, by simp [hc]⟩

/-- C14. For every input, each token of `tokenize` is a non-empty string of
digits, one of `&&`, `||`, `==`, `!=`, or a single character that is neither a
digit nor whitespace; so `>=`, `<=`, `++` and `--` are never one token (`>=` gives
`>` and `=`). Every token is a run of adjacent characters of the input, the four
pairs are merged when adjacent, and `& &` gives `&`, `&`. -/
theorem tokenize_merges_exactly_four :
    (∀ s : Str, ∀ t ∈ tokenize s,
      isNumber t = true ∨
      t ∈ ["&&".toList, "||".toList, "==".toList, "!=".toList] ∨
      ∃ c, t = [c] ∧ isdigit c = false ∧ isspace c = false) ∧
    (∀ s : Str, ∀ t ∈ tokenize s,
      t ≠ ">=".toList ∧ t ≠ "<=".toList ∧ t ≠ "++".toList ∧ t ≠ "--".toList) ∧
    (∀ s : Str, ∀ t ∈ tokenize s, List.IsInfix t s) ∧
    (∀ (c n : Char) (rest : Str), [c, n] ∈ ["&&".toList, "||".toList, "==".toList,
        "!=".toList] → tokenize (c :: n :: rest) = [c, n] :: tokenize rest) ∧
    tokenize ">=".toList = [">".toList, "=".toList] ∧
    tokenize "<=".toList = ["<".toList, "=".toList] ∧
    tokenize "++".toList = ["+".toList, "+".toList] ∧
    tokenize "--".toList = ["-".toList, "-".toList] ∧
    tokenize "& &".toList = ["&".toList, "&".toList] := by
  refine ⟨fun s => tokenize_shape s.length s le_rfl, ?_,
    fun s => tokenize_infix s.length s le_rfl, ?_,
    by decide, by decide, by decide, by decide, by decide⟩
  · intro s t ht
    rcases tokenize_shape s.length s le_rfl t ht with hn | hm | ⟨c, rfl, _, _⟩
    · have hd := headIsDigit_of_isNumber t hn
      refine ⟨?_, ?_, ?_, ?_⟩ <;> (rintro rfl; revert hd; decide)
    · simp only [String.toList, List.mem_cons, List.mem_singleton, List.not_mem_nil,
        or_false] at hm
      rcases hm with rfl | rfl | rfl | rfl <;> decide
    · simp [String.toList]
  · intro c n rest hm
    apply tokenize_double
    simp only [String.toList, List.mem_cons, List.mem_singleton, List.not_mem_nil,
      or_false, List.cons.injEq, and_true] at hm
    rcases hm with ⟨rfl, rfl⟩ | ⟨rfl, rfl⟩ | ⟨rfl, rfl⟩ | ⟨rfl, rfl⟩ <;> decide

/-- C19. For every input, the tokens of `tokenize`, concatenated in order, are the
input with its whitespace characters removed, and no token is empty or contains a
whitespace character. -/
theorem tokenize_loses_only_whitespace (s : Str) :
    (tokenize s).flatten = s.filter (fun c => !isspace c) ∧
    ∀ t ∈ tokenize s, t ≠ [] ∧ ∀ c ∈ t, isspace c = false := by
  refine ⟨tokenize_join s.length s le_rfl, ?_⟩
  intro t ht
  obtain ⟨hne, hall⟩ := tokenize_token_solid s t ht
  refine ⟨hne, ?_⟩
  intro c hc
  simpa using (List.all_eq_true.mp hall) c hc


/-! ## The output as a sequence of tokens -/

theorem spaced_nil : spaced [] = [] := rfl

theorem spaced_append_token (os : List Str) (t : Str) :
    spaced os ++ t ++ [' '] = spaced (os ++ [t]) := by
  simp [spaced]

theorem spaced_cons (t : Str) (os : List Str) :
    spaced (t :: os) = t ++ ' ' :: spaced os := by
  simp [spaced]

/-- Reading back an output text gives its tokens. -/
theorem splitWs_spaced (os : List Str)
    (h : ∀ t ∈ os, t ≠ [] ∧ t.all (fun ch => !isspace ch) = true) :
    splitWs (spaced os) = os := by
  induction os with
  | nil => rfl
  | cons t os ih =>
    have ht := h t (List.mem_cons_self _ _)
    rw [spaced_cons, splitWs_token t _ ht.1 ht.2,
      ih (fun u hu => h u (List.mem_cons_of_mem _ hu))]

/-! ## Expressions made of number literals only -/

/-- Conversion of number tokens: each goes to the output, the stack is left. -/
theorem toPostfixLoop_numbers (e : Evaluator) (toks : List Str) :
    ∀ (st : List Str) (os : List Str), (∀ t ∈ toks, headIsDigit t = true) →
    toPostfixLoop e st (spaced os) toks = (e, drainStack st (spaced (os ++ toks))) := by
  induction toks with
  | nil => intro st os _; simp [toPostfixLoop]
  | cons t toks ih =>
    intro st os h
    have ht := h t (List.mem_cons_self _ _)
    simp only [toPostfixLoop, ht, if_true]
    rw [spaced_append_token, ih st (os ++ [t]) (fun u hu => h u (List.mem_cons_of_mem _ hu))]
    simp

/-- Evaluation of number tokens: each value is pushed. -/
theorem evaluateLoop_numbers (e : Evaluator) (toks : List Str) :
    ∀ (stack : List Int),
    (∀ t ∈ toks, isNumber t = true ∧ digitsValue t ≤ 2147483647) →
    evaluateLoop e stack toks
      = evaluateLoop e ((toks.map fun t => (digitsValue t : Int)).reverse ++ stack) [] := by
  induction toks with
  | nil => intro stack _; simp
  | cons t toks ih =>
    intro stack h
    have ht := h t (List.mem_cons_self _ _)
    have step : evaluateLoop e stack (t :: toks)
        = evaluateLoop e ((digitsValue t : Int) :: stack) toks := by
      simp only [evaluateLoop, headIsDigit_of_isNumber t ht.1, if_true,
        stoi_number t ht.1 ht.2]
    rw [step, ih _ (fun u hu => h u (List.mem_cons_of_mem _ hu))]
    simp only [List.map_cons, List.reverse_cons, List.append_assoc, List.singleton_append]

theorem containsLogicalOperators_numbers (toks : List Str)
    (h : ∀ t ∈ toks, headIsDigit t = true) : containsLogicalOperators toks = false := by
  induction toks with
  | nil => rfl
  | cons t toks ih =>
    simp [containsLogicalOperators, isLogicalOperator_number t (h t (List.mem_cons_self _ _)),
      ih (fun u hu => h u (List.mem_cons_of_mem _ hu))]

/-- Method `eval` on an expression whose tokens are number literals that fit an
`int`: the final test of `evaluatePostfix` decides. -/
theorem eval_numbers (e : Evaluator) (expression : Str)
    (h : ∀ t ∈ tokenize expression, isNumber t = true ∧ digitsValue t ≤ 2147483647) :
    e.eval expression =
      (e, (evaluateLoop e
            (((tokenize expression).map fun t => (digitsValue t : Int)).reverse) []).map
          (render false)) := by
  have hd : ∀ t ∈ tokenize expression, headIsDigit t = true :=
    fun t ht => headIsDigit_of_isNumber t (h t ht).1
  have conv : e.toPostfix (tokenize expression) = (e, .ok (spaced (tokenize expression))) := by
    have := toPostfixLoop_numbers e (tokenize expression) [] [] hd
    simpa [Evaluator.toPostfix, spaced_nil, drainStack] using this
  rw [eval_of_toPostfix e e expression _ conv, containsLogicalOperators_numbers _ hd,
    Evaluator.evaluatePostfix,
    splitWs_spaced _ (fun t ht => ⟨isNumber_ne_nil t (h t ht).1, isNumber_noSpace t (h t ht).1⟩),
    evaluateLoop_numbers e _ [] h]
  simp

/-- C16. For every object and every expression whose tokens are `k` number
literals that fit an `int` and nothing else: the object is unchanged; for `k = 1`
`eval` returns the decimal text of the literal; for `k = 0` (the empty or
whitespace-only string) and for `k ≥ 2` it fails with "Invalid expression". -/
theorem eval_number_sequence (e : Evaluator) (expression : Str)
    (h : ∀ t ∈ tokenize expression, isNumber t = true ∧ digitsValue t ≤ 2147483647) :
    (e.eval expression).1 = e ∧
    ((tokenize expression).length = 1 →
      ∃ t, tokenize expression = [t] ∧
        (e.eval expression).2 = .ok (to_string (digitsValue t))) ∧
    ((tokenize expression).length ≠ 1 →
      (e.eval expression).2 = .error .invalidExpression) := by
  rw [eval_numbers e expression h]
  refine ⟨rfl, ?_, ?_⟩
  · intro hk
    obtain ⟨t, ht⟩ := List.length_eq_one.mp hk
    exact ⟨t, ht, by simp [ht, evaluateLoop, Except.map, render]⟩
  · intro hk
    rcases hts : tokenize expression with _ | ⟨t, _ | ⟨u, rest⟩⟩
    · simp [evaluateLoop, Except.map]
    · rw [hts] at hk; simp at hk
    · have : ∃ x y l, ((t :: u :: rest).map fun t => (digitsValue t : Int)).reverse
          = x :: y :: l := by
        rcases hl : ((t :: u :: rest).map fun t => (digitsValue t : Int)).reverse
          with _ | ⟨x, _ | ⟨y, l⟩⟩
        · simp at hl
        · have := congrArg List.length hl; simp at this
        · exact ⟨x, y, l, rfl⟩
      obtain ⟨x, y, l, hl⟩ := this
      simp only [hl, evaluateLoop, Except.map]

/-- C16, at ` `, `1 2` and `7`. -/
theorem eval_number_sequence_witness :
    (Evaluator.new.eval "".toList).2 = .error .invalidExpression ∧
    (Evaluator.new.eval "   ".toList).2 = .error .invalidExpression ∧
    (Evaluator.new.eval "1 2".toList).2 = .error .invalidExpression ∧
    (∃ t, tokenize "7".toList = [t] ∧
      (Evaluator.new.eval "7".toList).2 = .ok (to_string (digitsValue t))) :=
  ⟨(eval_number_sequence Evaluator.new "".toList (by decide)).2.2 (by decide),
   (eval_number_sequence Evaluator.new "   ".toList (by decide)).2.2 (by decide),
   (eval_number_sequence Evaluator.new "1 2".toList (by decide)).2.2 (by decide),
   (eval_number_sequence Evaluator.new "7".toList (by decide)).2.1 (by decide)⟩


/-! ## A minus sign in front of a literal -/

/-- A character that is neither a space nor a digit and does not start a
two-character operator is a token of its own, whatever follows. -/
theorem tokenize_plain (c : Char) (rest : Str) (hs : isspace c = false)
    (hd : isdigit c = false) (h2 : ∀ next, isTwoCharOperator c next = false) :
    tokenize (c :: rest) = [c] :: tokenize rest := by
  rw [tokenize_cons, hs, hd]
  cases rest with
  | nil => simp [tokenize_nil]
  | cons next rest' => simp [h2 next]

theorem not_twoChar_of_ne (c : Char) (h : c ≠ '&' ∧ c ≠ '|' ∧ c ≠ '=' ∧ c ≠ '!') :
    ∀ next, isTwoCharOperator c next = false := by
  intro next
  simp [isTwoCharOperator, h.1, h.2.1, h.2.2.1, h.2.2.2]

/-- Evaluation of an output that starts with one number followed by an operator:
the operator finds one operand. -/
theorem evaluateLoop_one_operand (e : Evaluator) (n op : Str) (rest : List Str)
    (hn : headIsDigit n = true) (hop : headIsDigit op = false)
    (o : e.isOperator op = true) :
    evaluateLoop e [] (n :: op :: rest)
      = (stoi n).bind fun _ => .error .invalidExpression := by
  simp only [evaluateLoop, hn, hop, o, if_true, Bool.false_eq_true, if_false]
  rcases stoi n with x | v <;> rfl

theorem bind_invalid_is_error (r : Except Err Int) :
    ∃ err, ((r.bind fun _ => (.error .invalidExpression : Except Err Int)).map
      (render false)) = .error err := by
  rcases r with x | v
  · exact ⟨x, rfl⟩
  · exact ⟨.invalidExpression, rfl⟩

/-- Method `eval` on `-n`, on an object whose table holds the initial one. -/
theorem eval_minus_literal (e : Evaluator) (n : Str) (he : extendsInitial e = true)
    (hn : isNumber n = true) :
    e.eval ("-".toList ++ n) =
      (e,
        ((stoi n).bind fun _ => (.error .invalidExpression : Except Err Int)).map
          (render false)) := by
  have dn := headIsDigit_of_isNumber n hn
  have tok : tokenize ("-".toList ++ n) = [['-'], n] := by
    show tokenize ('-' :: n) = _
    rw [tokenize_plain '-' n (by decide) (by decide) (not_twoChar_of_ne _ (by decide)),
      tokenize_number n hn]
  have o : e.isOperator ['-'] = true :=
    isOperator_of_find e _ 5 (extendsInitial_find e he _ 5 (by decide))
  have conv : e.toPostfix [['-'], n] = (e, .ok (spaced [n, ['-']])) := by
    have h1 : headIsDigit ['-'] = false := by decide
    simp [Evaluator.toPostfix, toPostfixLoop, popHigher, drainStack, dn, h1, o, spaced]
  have cl : containsLogicalOperators [['-'], n] = false := by
    have hl : isLogicalOperator ['-'] = false := by decide
    simp [containsLogicalOperators, isLogicalOperator_number n dn, hl]
  rw [eval_of_toPostfix _ _ _ _ (by rw [tok]; exact conv), tok, cl,
    Evaluator.evaluatePostfix,
    splitWs_spaced [n, ['-']] (by
      intro t ht
      simp only [List.mem_cons, List.mem_singleton, List.not_mem_nil, or_false] at ht
      rcases ht with rfl | rfl
      · exact ⟨isNumber_ne_nil _ hn, isNumber_noSpace _ hn⟩
      · exact ⟨by simp, by decide⟩),
    evaluateLoop_one_operand _ n ['-'] [] dn (by decide) o]

/-- Method `eval` on `a*-b`, on an object whose table holds the initial one. -/
theorem eval_times_minus (e : Evaluator) (a b : Str) (he : extendsInitial e = true)
    (ha : isNumber a = true) (hb : isNumber b = true) :
    e.eval (a ++ "*-".toList ++ b) =
      (e,
        ((stoi a).bind fun _ => (.error .invalidExpression : Except Err Int)).map
          (render false)) := by
  have da := headIsDigit_of_isNumber a ha
  have db := headIsDigit_of_isNumber b hb
  have tok : tokenize (a ++ "*-".toList ++ b) = [a, ['*'], ['-'], b] := by
    have e : a ++ "*-".toList ++ b = a ++ ('*' :: '-' :: b) := by simp [String.toList]
    rw [e, tokenize_number_append a ('*' :: '-' :: b) ha (by simp [headIsDigit]; decide),
      tokenize_plain '*' _ (by decide) (by decide) (not_twoChar_of_ne _ (by decide)),
      tokenize_plain '-' _ (by decide) (by decide) (not_twoChar_of_ne _ (by decide)),
      tokenize_number b hb]
  have f1 : mapFind e.precedence ['*'] = some 6 :=
    extendsInitial_find e he _ 6 (by decide)
  have f2 : mapFind e.precedence ['-'] = some 5 :=
    extendsInitial_find e he _ 5 (by decide)
  have o1 := isOperator_of_find e _ _ f1
  have o2 := isOperator_of_find e _ _ f2
  have i1 := index_of_find e _ _ f1
  have i2 := index_of_find e _ _ f2
  have h1 : headIsDigit ['*'] = false := by decide
  have h2 : headIsDigit ['-'] = false := by decide
  have conv : e.toPostfix [a, ['*'], ['-'], b]
      = (e, .ok (spaced [a, ['*'], b, ['-']])) := by
    simp [Evaluator.toPostfix, toPostfixLoop, popHigher, drainStack, da, db, h1, h2,
      o1, o2, i1, i2, spaced]
  have cl : containsLogicalOperators [a, ['*'], ['-'], b] = false := by
    have l1 : isLogicalOperator ['*'] = false := by decide
    have l2 : isLogicalOperator ['-'] = false := by decide
    simp [containsLogicalOperators, isLogicalOperator_number a da,
      isLogicalOperator_number b db, l1, l2]
  rw [eval_of_toPostfix _ _ _ _ (by rw [tok]; exact conv), tok, cl,
    Evaluator.evaluatePostfix,
    splitWs_spaced [a, ['*'], b, ['-']] (by
      intro t ht
      simp only [List.mem_cons, List.mem_singleton, List.not_mem_nil, or_false] at ht
      rcases ht with rfl | rfl | rfl | rfl
      · exact ⟨isNumber_ne_nil _ ha, isNumber_noSpace _ ha⟩
      · exact ⟨by simp, by decide⟩
      · exact ⟨isNumber_ne_nil _ hb, isNumber_noSpace _ hb⟩
      · exact ⟨by simp, by decide⟩),
    evaluateLoop_one_operand _ a ['*'] _ da h1 o1]

/-- Conversion of `(-n)` on a freshly constructed object: the `-` reads
`precedence["("]`, which adds `(` to the table. -/
theorem toPostfix_paren_minus_new (n : Str) (dn : headIsDigit n = true) :
    Evaluator.new.toPostfix [['('], ['-'], n, [')']]
      = (Evaluator.used, .ok (spaced [n, ['-']])) := by
  have o0 : Evaluator.new.isOperator ['('] = false := by decide
  have o1 : Evaluator.new.isOperator ['-'] = true := by decide
  have o3 : (Evaluator.new.index ['(']).2.isOperator [')'] = false := by decide
  have i1 : (Evaluator.new.index ['(']).1 = 0 := by decide
  have i2 : (Evaluator.new.index ['(']).2.index ['-']
      = (5, (Evaluator.new.index ['(']).2) := by decide
  have h0 : headIsDigit ['('] = false := by decide
  have h1 : headIsDigit ['-'] = false := by decide
  have h2 : headIsDigit [')'] = false := by decide
  simp [Evaluator.toPostfix, toPostfixLoop, popHigher, popToParen, drainStack, dn,
    h0, h1, h2, o0, o1, o3, i1, i2, spaced, Evaluator.used]

/-- Conversion of `(-n)` on an object whose table holds `(`: the `(` is pushed as
an operator of rank `0`, below which `-` does not pop. -/
theorem toPostfix_paren_minus_used (n : Str) (dn : headIsDigit n = true) :
    Evaluator.used.toPostfix [['('], ['-'], n, [')']]
      = (Evaluator.used, .ok (spaced [n, ['-']])) := by
  have o0 : Evaluator.used.isOperator ['('] = true := by decide
  have o1 : Evaluator.used.isOperator ['-'] = true := by decide
  have o3 : Evaluator.used.isOperator [')'] = false := by decide
  have i1 : Evaluator.used.index ['('] = (0, Evaluator.used) := by decide
  have i2 : Evaluator.used.index ['-'] = (5, Evaluator.used) := by decide
  have h0 : headIsDigit ['('] = false := by decide
  have h1 : headIsDigit ['-'] = false := by decide
  have h2 : headIsDigit [')'] = false := by decide
  simp [Evaluator.toPostfix, toPostfixLoop, popHigher, popToParen, drainStack, dn,
    h0, h1, h2, o0, o1, o3, i1, i2, spaced]

/-- Method `eval` on `(-n)`, on either object a program can hold; the object
afterwards has `(` in its table. -/
theorem eval_paren_minus (e : Evaluator) (n : Str) (he : isReachable e = true)
    (hn : isNumber n = true) :
    e.eval ("(-".toList ++ n ++ ")".toList) =
      (Evaluator.used,
        ((stoi n).bind fun _ => (.error .invalidExpression : Except Err Int)).map
          (render false)) := by
  have dn := headIsDigit_of_isNumber n hn
  have tok : tokenize ("(-".toList ++ n ++ ")".toList) = [['('], ['-'], n, [')']] := by
    have e : "(-".toList ++ n ++ ")".toList = '(' :: '-' :: (n ++ [')']) := by
      simp [String.toList]
    have t1 : tokenize [')'] = [[')']] := by decide
    rw [e, tokenize_plain '(' _ (by decide) (by decide) (not_twoChar_of_ne _ (by decide)),
      tokenize_plain '-' _ (by decide) (by decide) (not_twoChar_of_ne _ (by decide)),
      tokenize_number_append n [')'] hn (by decide), t1]
  have conv : e.toPostfix [['('], ['-'], n, [')']]
      = (Evaluator.used, .ok (spaced [n, ['-']])) := by
    rcases isReachable_cases e he with rfl | rfl
    · exact toPostfix_paren_minus_new n dn
    · exact toPostfix_paren_minus_used n dn
  have o2 : Evaluator.used.isOperator ['-'] = true := by decide
  have h1 : headIsDigit ['-'] = false := by decide
  have cl : containsLogicalOperators [['('], ['-'], n, [')']] = false := by
    have l0 : isLogicalOperator ['('] = false := by decide
    have l1 : isLogicalOperator ['-'] = false := by decide
    have l2 : isLogicalOperator [')'] = false := by decide
    simp [containsLogicalOperators, isLogicalOperator_number n dn, l0, l1, l2]
  rw [eval_of_toPostfix _ _ _ _ (by rw [tok]; exact conv), tok, cl,
    Evaluator.evaluatePostfix,
    splitWs_spaced [n, ['-']] (by
      intro t ht
      simp only [List.mem_cons, List.mem_singleton, List.not_mem_nil, or_false] at ht
      rcases ht with rfl | rfl
      · exact ⟨isNumber_ne_nil _ hn, isNumber_noSpace _ hn⟩
      · exact ⟨by simp, by decide⟩),
    evaluateLoop_one_operand _ n ['-'] [] dn h1 o2]

/-- C17, as stated, fails on a literal that does not fit an `int`: `eval` of
`-2147483648` fails in `stoi` with `std::out_of_range`, not with "Invalid
expression". -/
theorem minus_large_literal_out_of_range :
    isNumber "2147483648".toList = true ∧
    tokenize "-2147483648".toList = ["-".toList, "2147483648".toList] ∧
    (Evaluator.new.eval "-2147483648".toList).2 = .error .stoiOutOfRange := by
  decide

/-- C17, amended. For every number literal `n`, `tokenize` of `-n` is the two
tokens `-`, `n`. On either object a program can hold (the freshly constructed one,
or the one with `(` in its table), `eval` of `-n`, of `a*-b` and of `(-n)` returns
no result for any literals `a`, `b`, `n`: it fails with "Invalid expression" when
`n` (for `a*-b`: when `a`) fits an `int`, and with the `std::out_of_range` of
`stoi` otherwise. -/
theorem leading_minus_is_operator :
    (∀ n : Str, isNumber n = true → tokenize ("-".toList ++ n) = ["-".toList, n]) ∧
    (∀ (e : Evaluator) (n : Str), isReachable e = true → isNumber n = true →
      (digitsValue n ≤ 2147483647 →
        (e.eval ("-".toList ++ n)).2 = .error .invalidExpression ∧
        (e.eval ("(-".toList ++ n ++ ")".toList)).2 = .error .invalidExpression) ∧
      (2147483647 < digitsValue n →
        (e.eval ("-".toList ++ n)).2 = .error .stoiOutOfRange ∧
        (e.eval ("(-".toList ++ n ++ ")".toList)).2 = .error .stoiOutOfRange)) ∧
    (∀ (e : Evaluator) (a b : Str), isReachable e = true →
      isNumber a = true → isNumber b = true →
      (digitsValue a ≤ 2147483647 →
        (e.eval (a ++ "*-".toList ++ b)).2 = .error .invalidExpression) ∧
      (2147483647 < digitsValue a →
        (e.eval (a ++ "*-".toList ++ b)).2 = .error .stoiOutOfRange)) := by
  refine ⟨?_, ?_, ?_⟩
  · intro n hn
    show tokenize ('-' :: n) = _
    rw [tokenize_plain '-' n (by decide) (by decide) (not_twoChar_of_ne _ (by decide)),
      tokenize_number n hn]
    rfl
  · intro e n he hn
    rw [eval_minus_literal e n (extendsInitial_of_isReachable e he) hn,
      eval_paren_minus e n he hn]
    constructor
    · intro hr
      rw [stoi_number n hn hr]
      exact ⟨rfl, rfl⟩
    · intro hr
      rw [stoi_number_large n hn hr]
      exact ⟨rfl, rfl⟩
  · intro e a b he ha hb
    rw [eval_times_minus e a b (extendsInitial_of_isReachable e he) ha hb]
    constructor
    · intro hr
      rw [stoi_number a ha hr]
      rfl
    · intro hr
      rw [stoi_number_large a ha hr]
      rfl

/-- C17 amended, at the literal `5` on a fresh object, and at `5`, and `2` and
`3`, on the object left by `eval` of `(1+2)`. -/
theorem leading_minus_is_operator_witness :
    tokenize ("-".toList ++ "5".toList) = ["-".toList, "5".toList] ∧
    ((Evaluator.new.eval ("-".toList ++ "5".toList)).2 = .error .invalidExpression ∧
      (Evaluator.new.eval ("(-".toList ++ "5".toList ++ ")".toList)).2
        = .error .invalidExpression) ∧
    (((Evaluator.new.eval "(1+2)".toList).1.eval ("-".toList ++ "5".toList)).2
        = .error .invalidExpression ∧
      ((Evaluator.new.eval "(1+2)".toList).1.eval
          ("(-".toList ++ "5".toList ++ ")".toList)).2 = .error .invalidExpression) ∧
    ((Evaluator.new.eval "(1+2)".toList).1.eval
        ("2".toList ++ "*-".toList ++ "3".toList)).2 = .error .invalidExpression :=
  ⟨leading_minus_is_operator.1 "5".toList (by decide),
   (leading_minus_is_operator.2.1 Evaluator.new "5".toList (by decide) (by decide)).1
     (by decide),
   (leading_minus_is_operator.2.1 (Evaluator.new.eval "(1+2)".toList).1 "5".toList
     (by decide) (by decide)).1 (by decide),
   (leading_minus_is_operator.2.2 (Evaluator.new.eval "(1+2)".toList).1 "2".toList
     "3".toList (by decide) (by decide) (by decide)).1 (by decide)⟩

/-! ## Accounting of the tokens through the conversion -/

theorem count_append_single (x t : Str) (os : List Str) :
    List.count x (os ++ [t]) = List.count x os + List.count x [t] := by
  simp

/-- The operator loop moves tokens from the stack to the output. -/
theorem popHigher_spaced (tok : Str) (st : List Str) :
    ∀ (e : Evaluator) (os : List Str), ∃ os',
      (popHigher e tok st (spaced os)).2.2 = spaced os' ∧
      ∀ x, List.count x st + List.count x os
        = List.count x (popHigher e tok st (spaced os)).2.1 + List.count x os' := by
  induction st with
  | nil => intro e os; exact ⟨os, rfl, fun x => rfl⟩
  | cons top rest ih =>
    intro e os
    by_cases hc : ((e.index top).2.index tok).1 ≤ (e.index top).1
    · obtain ⟨os', h1, h2⟩ := ih ((e.index top).2.index tok).2 (os ++ [top])
      refine ⟨os', ?_, ?_⟩
      · simp only [popHigher, hc, if_true, spaced_append_token]; exact h1
      · intro x
        simp only [popHigher, hc, if_true, spaced_append_token]
        have := h2 x
        rw [count_append_single] at this
        rw [← this, List.count_cons, List.count_cons, List.count_nil]
        omega
    · exact ⟨os, by simp only [popHigher, hc, if_false], fun x => by
        simp only [popHigher, hc, if_false]⟩

/-- The loop of the `)` branch moves tokens from the stack to the output and then
discards one `(`. -/
theorem popToParen_spaced (st : List Str) :
    ∀ (os st' : List Str) (out' : Str), popToParen st (spaced os) = some (st', out') →
    ∃ os', out' = spaced os' ∧
      ∀ x, List.count x st + List.count x os
        = List.count x st' + List.count x os' + (if x = ['('] then 1 else 0) := by
  induction st with
  | nil => intro os st' out' h; simp [popToParen] at h
  | cons top rest ih =>
    intro os st' out' h
    by_cases hp : top = ['(']
    · simp only [popToParen, hp, if_true, Option.some.injEq, Prod.mk.injEq] at h
      refine ⟨os, h.2.symm, ?_⟩
      intro x
      rw [← h.1, hp, List.count_cons]
      by_cases hx : x = ['(']
      · subst hx; simp; omega
      · have : (['('] == x) = false := by
          simp only [beq_eq_false_iff_ne, ne_eq]; exact fun h => hx h.symm
        simp [hx, this]
    · simp only [popToParen, hp, if_false, spaced_append_token] at h
      obtain ⟨os', h1, h2⟩ := ih (os ++ [top]) st' out' h
      refine ⟨os', h1, ?_⟩
      intro x
      have := h2 x
      rw [count_append_single] at this
      rw [← this, List.count_cons, List.count_cons, List.count_nil]
      omega

/-- The final loop moves the whole stack to the output. -/
theorem drainStack_spaced (st : List Str) :
    ∀ (os : List Str) (pf : Str), drainStack st (spaced os) = .ok pf →
    ∃ os', pf = spaced os' ∧
      ∀ x, List.count x st + List.count x os = List.count x os' := by
  induction st with
  | nil =>
    intro os pf h
    simp only [drainStack, Except.ok.injEq] at h
    exact ⟨os, h.symm, fun x => by simp⟩
  | cons top rest ih =>
    intro os pf h
    by_cases hp : top = ['(']
    · simp [drainStack, hp] at h
    · simp only [drainStack, hp, if_false, spaced_append_token] at h
      obtain ⟨os', h1, h2⟩ := ih (os ++ [top]) pf h
      refine ⟨os', h1, ?_⟩
      intro x
      have := h2 x
      rw [count_append_single] at this
      rw [← this, List.count_cons, List.count_cons, List.count_nil]
      omega


/-- A successful conversion accounts for every token: each token of the input,
the stack and the earlier output is in the final output, except `d` pairs of
parentheses, one `(` and one `)` for each `)` that closed a group. -/
theorem toPostfixLoop_count (toks : List Str) :
    ∀ (e : Evaluator) (st os : List Str) (pf : Str),
    (toPostfixLoop e st (spaced os) toks).2 = .ok pf →
    ∃ (os' : List Str) (d : Nat), pf = spaced os' ∧
      ∀ x, List.count x toks + List.count x st + List.count x os
        = List.count x os' + (if x = ['('] ∨ x = [')'] then d else 0) := by
  induction toks with
  | nil =>
    intro e st os pf h
    simp only [toPostfixLoop] at h
    obtain ⟨os', h1, h2⟩ := drainStack_spaced st os pf h
    exact ⟨os', 0, h1, fun x => by simp [h2 x]⟩
  | cons t toks ih =>
    intro e st os pf h
    by_cases hd : headIsDigit t = true
    · simp only [toPostfixLoop, hd, if_true, spaced_append_token] at h
      obtain ⟨os', d, h1, h2⟩ := ih e st (os ++ [t]) pf h
      refine ⟨os', d, h1, fun x => ?_⟩
      have := h2 x
      rw [count_append_single] at this
      rw [← this, List.count_cons, List.count_cons, List.count_nil]
      omega
    · by_cases ho : e.isOperator t = true
      · simp only [toPostfixLoop, hd, ho, if_true, Bool.false_eq_true, if_false] at h
        obtain ⟨os1, p1, p2⟩ := popHigher_spaced t st e os
        rw [p1] at h
        obtain ⟨os', d, h1, h2⟩ := ih _ _ os1 pf h
        refine ⟨os', d, h1, fun x => ?_⟩
        have := h2 x
        have := p2 x
        rw [List.count_cons] at *
        omega
      · by_cases hl : t = ['(']
        · simp only [toPostfixLoop, hd, ho, hl, if_true, Bool.false_eq_true, if_false] at h
          have hd' : headIsDigit ['('] = false := by decide
          have ho' : e.isOperator ['('] = false := by rw [← hl]; simpa using ho
          simp only [hd', ho', Bool.false_eq_true, if_false] at h
          obtain ⟨os', d, h1, h2⟩ := ih e (['('] :: st) os pf h
          refine ⟨os', d, h1, fun x => ?_⟩
          have := h2 x
          rw [hl]
          rw [List.count_cons] at *
          omega
        · by_cases hr : t = [')']
          · subst hr
            simp only [toPostfixLoop, hd, ho, hl, if_true, Bool.false_eq_true, if_false] at h
            rcases hp : popToParen st (spaced os) with _ | ⟨st1, out1⟩
            · rw [hp] at h; simp at h
            · rw [hp] at h
              simp only at h
              obtain ⟨os1, q1, q2⟩ := popToParen_spaced st os st1 out1 hp
              rw [q1] at h
              obtain ⟨os', d, h1, h2⟩ := ih e st1 os1 pf h
              refine ⟨os', d + 1, h1, fun x => ?_⟩
              have a1 := h2 x
              have a2 := q2 x
              rw [List.count_cons]
              by_cases x1 : x = ['(']
              · subst x1
                simp only [true_or, if_true] at a1 a2 ⊢
                have : (([')'] : Str) == ['(']) = false := by decide
                simp only [this, Bool.false_eq_true, if_false]
                omega
              · by_cases x2 : x = [')']
                · subst x2
                  simp only [or_true, if_true, x1, if_false] at a1 a2 ⊢
                  simp only [beq_self_eq_true, if_true]
                  omega
                · have : (([')'] : Str) == x) = false := by
                    simp only [beq_eq_false_iff_ne, ne_eq]; exact fun h => x2 h.symm
                  simp only [x1, x2, or_self, if_false, this, Bool.false_eq_true] at a1 a2 ⊢
                  omega
          · simp [toPostfixLoop, hd, ho, hl, hr] at h

theorem applyOperator_paren (a b : Int) :
    (∃ err, applyOperator ['('] a b = .error err) ∧
    (∃ err, applyOperator [')'] a b = .error err) := by
  exact ⟨⟨.unknownOperator ['('], by simp [applyOperator]⟩,
    ⟨.unknownOperator [')'], by simp [applyOperator]⟩⟩

/-- An evaluation that returns a value met no parenthesis in its tokens. -/
theorem evaluateLoop_ok_no_paren (e : Evaluator) (toks : List Str) :
    ∀ (stack : List Int) (r : Int), evaluateLoop e stack toks = .ok r →
    ∀ t ∈ toks, t ≠ ['('] ∧ t ≠ [')'] := by
  induction toks with
  | nil => intro stack r _ t ht; simp at ht
  | cons u toks ih =>
    intro stack r h t ht
    by_cases hd : headIsDigit u = true
    · simp only [evaluateLoop, hd, if_true] at h
      rcases hs : stoi u with x | v
      · rw [hs] at h; simp at h
      · rw [hs] at h
        simp only at h
        rcases List.mem_cons.mp ht with rfl | ht'
        · constructor <;> (rintro rfl; revert hd; decide)
        · exact ih _ r h t ht'
    · by_cases ho : e.isOperator u = true
      · simp only [evaluateLoop, hd, ho, if_true, Bool.false_eq_true, if_false] at h
        rcases stack with _ | ⟨b, _ | ⟨a, below⟩⟩
        · simp at h
        · simp at h
        · simp only at h
          rcases ha : applyOperator u a b with x | v
          · rw [ha] at h; simp at h
          · rw [ha] at h
            simp only at h
            rcases List.mem_cons.mp ht with rfl | ht'
            · constructor
              · rintro rfl
                obtain ⟨err, he⟩ := (applyOperator_paren a b).1
                rw [he] at ha; simp at ha
              · rintro rfl
                obtain ⟨err, he⟩ := (applyOperator_paren a b).2
                rw [he] at ha; simp at ha
            · exact ih _ r h t ht'
      · simp [evaluateLoop, hd, ho] at h


/-- An expression on which `eval` returns a text has as many `(` tokens as `)`
tokens, whatever the object. -/
theorem eval_ok_balanced (e : Evaluator) (expression text : Str)
    (h : (e.eval expression).2 = .ok text) :
    List.count ['('] (tokenize expression) = List.count [')'] (tokenize expression) := by
  obtain ⟨pf, r, hpf, hr, _⟩ := eval_ok_inv e expression text h
  have hconv : (toPostfixLoop e [] (spaced []) (tokenize expression)).2 = .ok pf := hpf
  obtain ⟨os', d, h1, h2⟩ := toPostfixLoop_count _ e [] [] pf hconv
  have hmem : ∀ t ∈ os', t ∈ tokenize expression := by
    intro t ht
    have hc := h2 t
    have hpos : 0 < List.count t os' := List.count_pos_iff.mpr ht
    by_contra hn
    have hz : List.count t (tokenize expression) = 0 := List.count_eq_zero.mpr hn
    by_cases hx : t = ['('] ∨ t = [')']
    · simp only [hx, if_true, List.count_nil, hz] at hc; omega
    · simp only [hx, if_false, List.count_nil, hz] at hc; omega
  rw [h1, Evaluator.evaluatePostfix,
    splitWs_spaced os' (fun t ht => tokenize_token_solid expression t (hmem t ht))] at hr
  have hno := evaluateLoop_ok_no_paren _ os' [] r hr
  have zl : List.count ['('] os' = 0 :=
    List.count_eq_zero.mpr (fun hm => (hno _ hm).1 rfl)
  have zr : List.count [')'] os' = 0 :=
    List.count_eq_zero.mpr (fun hm => (hno _ hm).2 rfl)
  have cl := h2 ['(']
  have cr := h2 [')']
  simp only [true_or, or_true, if_true, List.count_nil, zl, zr] at cl cr
  omega

/-- C20. For every object, whatever its precedence table holds, and every
expression in which the number of `(` tokens differs from the number of `)`
tokens, `eval` fails with some error. -/
theorem unbalanced_never_evaluates (e : Evaluator) (expression : Str)
    (h : List.count "(".toList (tokenize expression)
      ≠ List.count ")".toList (tokenize expression)) :
    ∃ err, (e.eval expression).2 = .error err := by
  rcases hres : (e.eval expression).2 with err | text
  · exact ⟨err, rfl⟩
  · exact absurd (eval_ok_balanced e expression text hres) h

/-- C20, at `(1+2)((3)` on the object left by an earlier `eval` of `(1+2)`, whose
table holds `(`. -/
theorem unbalanced_never_evaluates_witness :
    (Evaluator.new.eval "(1+2)".toList).1.isOperator "(".toList = true ∧
    ∃ err, ((Evaluator.new.eval "(1+2)".toList).1.eval "(1+2)((3)".toList).2
      = .error err :=
  ⟨by decide,
   unbalanced_never_evaluates (Evaluator.new.eval "(1+2)".toList).1 "(1+2)((3)".toList
     (by decide)⟩


/-! ## Keys of the table during a conversion -/

theorem mapFind_mapAssign (m : List (Str × Int)) (k k' : Str) (v : Int) :
    mapFind (mapAssign m k v) k' = if k = k' then some v else mapFind m k' := by
  induction m with
  | nil => simp [mapAssign, mapFind]
  | cons kv m ih =>
    obtain ⟨k0, v0⟩ := kv
    by_cases h0 : k0 = k
    · subst h0
      by_cases h1 : k0 = k'
      · simp [mapAssign, mapFind, h1]
      · simp [mapAssign, mapFind, h1]
    · by_cases h1 : k0 = k'
      · subst h1
        have : ¬ k = k0 := fun h => h0 h.symm
        simp [mapAssign, mapFind, h0, this]
      · simp [mapAssign, mapFind, h0, h1, ih]

/-- A read `precedence[k]` keeps every key and can add only `k`. -/
theorem isOperator_index (e : Evaluator) (k k' : Str) :
    (e.index k).2.isOperator k' = true ↔ (e.isOperator k' = true ∨ k' = k) := by
  simp only [Evaluator.index, Evaluator.isOperator, mapIndex]
  rcases hf : mapFind e.precedence k with _ | v
  · simp only [mapFind_mapAssign]
    by_cases hk : k = k'
    · simp [hk]
    · have : ¬ k' = k := fun h => hk h.symm
      simp [hk, this]
  · simp only
    constructor
    · exact fun h => Or.inl h
    · rintro (h | rfl)
      · exact h
      · simp [hf]

/-- The operator loop keeps every key, adds only keys that are `token` or on the
stack, and leaves a part of the stack. -/
theorem popHigher_keys (tok : Str) (st : List Str) :
    ∀ (e : Evaluator) (out : Str),
      (∀ k, e.isOperator k = true → (popHigher e tok st out).1.isOperator k = true) ∧
      (∀ k, (popHigher e tok st out).1.isOperator k = true →
        e.isOperator k = true ∨ k = tok ∨ k ∈ st) ∧
      (∀ s ∈ (popHigher e tok st out).2.1, s ∈ st) := by
  induction st with
  | nil =>
    intro e out
    simp only [popHigher]
    exact ⟨fun k hk => hk, fun k hk => Or.inl hk, fun s hs => hs⟩
  | cons top rest ih =>
    intro e out
    have up : ∀ k, e.isOperator k = true →
        ((e.index top).2.index tok).2.isOperator k = true := fun k hk =>
      (isOperator_index _ tok k).mpr (Or.inl ((isOperator_index e top k).mpr (Or.inl hk)))
    have down : ∀ k, ((e.index top).2.index tok).2.isOperator k = true →
        e.isOperator k = true ∨ k = tok ∨ k = top := by
      intro k hk
      rcases (isOperator_index _ tok k).mp hk with h | h
      · rcases (isOperator_index e top k).mp h with h' | h'
        · exact Or.inl h'
        · exact Or.inr (Or.inr h')
      · exact Or.inr (Or.inl h)
    by_cases hc : ((e.index top).2.index tok).1 ≤ (e.index top).1
    · obtain ⟨a1, a2, a3⟩ := ih ((e.index top).2.index tok).2 (out ++ top ++ [' '])
      simp only [popHigher, hc, if_true]
      refine ⟨fun k hk => a1 k (up k hk), ?_, fun s hs => List.mem_cons_of_mem _ (a3 s hs)⟩
      intro k hk
      rcases a2 k hk with h | h | h
      · rcases down k h with h' | h' | h'
        · exact Or.inl h'
        · exact Or.inr (Or.inl h')
        · exact Or.inr (Or.inr (by rw [h']; exact List.mem_cons_self _ _))
      · exact Or.inr (Or.inl h)
      · exact Or.inr (Or.inr (List.mem_cons_of_mem _ h))
    · simp only [popHigher, hc, if_false]
      refine ⟨up, ?_, fun s hs => hs⟩
      intro k hk
      rcases down k hk with h' | h' | h'
      · exact Or.inl h'
      · exact Or.inr (Or.inl h')
      · exact Or.inr (Or.inr (by rw [h']; exact List.mem_cons_self _ _))

theorem popToParen_subset (st : List Str) :
    ∀ (out : Str) (st' : List Str) (out' : Str),
    popToParen st out = some (st', out') → ∀ s ∈ st', s ∈ st := by
  induction st with
  | nil => intro out st' out' h; simp [popToParen] at h
  | cons top rest ih =>
    intro out st' out' h s hs
    by_cases hp : top = ['(']
    · simp only [popToParen, hp, if_true, Option.some.injEq, Prod.mk.injEq] at h
      rw [← h.1] at hs
      exact List.mem_cons_of_mem _ hs
    · simp only [popToParen, hp, if_false] at h
      exact List.mem_cons_of_mem _ (ih _ st' out' h s hs)


/-- Conversion of a token sequence whose first token without a branch is `t0`:
the conversion stops at `t0` with "Invalid token", unless an earlier `)` has
already stopped it with "Mismatched parentheses". The hypotheses on the object
and the stack hold at the start and are kept by every step. -/
theorem toPostfixLoop_unknown (pre : List Str) (t0 : Str) (post : List Str)
    (hd0 : headIsDigit t0 = false) (ho0 : Evaluator.new.isOperator t0 = false)
    (hl0 : t0 ≠ ['(']) (hr0 : t0 ≠ [')']) :
    ∀ (e : Evaluator) (st : List Str) (out : Str),
    (∀ k, Evaluator.new.isOperator k = true → e.isOperator k = true) →
    (∀ k, e.isOperator k = true → Evaluator.new.isOperator k = true ∨ k = ['(']) →
    (∀ s ∈ st, Evaluator.new.isOperator s = true ∨ s = ['(']) →
    (∀ p ∈ pre, headIsDigit p = true ∨ Evaluator.new.isOperator p = true ∨
      p = ['('] ∨ p = [')']) →
    ((toPostfixLoop e st out (pre ++ t0 :: post)).2 = .error (.invalidToken t0) ∨
      (toPostfixLoop e st out (pre ++ t0 :: post)).2 = .error .mismatchedParentheses) ∧
    ([')'] ∉ pre →
      (toPostfixLoop e st out (pre ++ t0 :: post)).2 = .error (.invalidToken t0)) := by
  induction pre with
  | nil =>
    intro e st out _ i2 _ _
    have he0 : e.isOperator t0 = false := by
      cases hb : e.isOperator t0
      · rfl
      · rcases i2 t0 hb with h | h
        · rw [ho0] at h; exact absurd h (by simp)
        · exact absurd h hl0
    have : (toPostfixLoop e st out ([] ++ t0 :: post)).2 = .error (.invalidToken t0) := by
      simp [toPostfixLoop, hd0, he0, hl0, hr0]
    exact ⟨Or.inl this, fun _ => this⟩
  | cons p pre ih =>
    intro e st out i1 i2 i3 hk
    have hp := hk p (List.mem_cons_self _ _)
    have hk' : ∀ q ∈ pre, headIsDigit q = true ∨ Evaluator.new.isOperator q = true ∨
        q = ['('] ∨ q = [')'] := fun q hq => hk q (List.mem_cons_of_mem _ hq)
    have notin : [')'] ∉ p :: pre → [')'] ∉ pre :=
      fun h hm => h (List.mem_cons_of_mem _ hm)
    by_cases hd : headIsDigit p = true
    · have step : toPostfixLoop e st out ((p :: pre) ++ t0 :: post)
          = toPostfixLoop e st (out ++ p ++ [' ']) (pre ++ t0 :: post) := by
        simp [toPostfixLoop, hd]
      rw [step]
      obtain ⟨a, b⟩ := ih e st _ i1 i2 i3 hk'
      exact ⟨a, fun h => b (notin h)⟩
    · by_cases ho : e.isOperator p = true
      · have step : toPostfixLoop e st out ((p :: pre) ++ t0 :: post)
            = toPostfixLoop (popHigher e p st out).1 (p :: (popHigher e p st out).2.1)
                (popHigher e p st out).2.2 (pre ++ t0 :: post) := by
          simp [toPostfixLoop, hd, ho]
        rw [step]
        obtain ⟨k1, k2, k3⟩ := popHigher_keys p st e out
        have pk : Evaluator.new.isOperator p = true ∨ p = ['('] := i2 p ho
        obtain ⟨a, b⟩ := ih (popHigher e p st out).1 (p :: (popHigher e p st out).2.1)
          (popHigher e p st out).2.2
          (fun k hk => k1 k (i1 k hk))
          (fun k hk => by
            rcases k2 k hk with h | h | h
            · exact i2 k h
            · rw [h]; exact pk
            · exact i3 k h)
          (fun s hs => by
            rcases List.mem_cons.mp hs with h | h
            · rw [h]; exact pk
            · exact i3 s (k3 s h))
          hk'
        exact ⟨a, fun h => b (notin h)⟩
      · have ho' : e.isOperator p = false := by simpa using ho
        have hd' : headIsDigit p = false := by simpa using hd
        by_cases hl : p = ['(']
        · subst hl
          have step : toPostfixLoop e st out ((['('] :: pre) ++ t0 :: post)
              = toPostfixLoop e (['('] :: st) out (pre ++ t0 :: post) := by
            simp [toPostfixLoop, hd', ho']
          rw [step]
          obtain ⟨a, b⟩ := ih e (['('] :: st) out i1 i2
            (fun s hs => by
              rcases List.mem_cons.mp hs with h | h
              · exact Or.inr h
              · exact i3 s h)
            hk'
          exact ⟨a, fun h => b (notin h)⟩
        · by_cases hr : p = [')']
          · subst hr
            have inpre : [')'] ∈ [')'] :: pre := List.mem_cons_self _ _
            refine ⟨?_, fun h => absurd inpre h⟩
            rcases hpp : popToParen st out with _ | ⟨st1, out1⟩
            · right
              simp [toPostfixLoop, hd', ho', hpp]
            · have step : toPostfixLoop e st out (([')'] :: pre) ++ t0 :: post)
                  = toPostfixLoop e st1 out1 (pre ++ t0 :: post) := by
                simp [toPostfixLoop, hd', ho', hpp]
              rw [step]
              exact (ih e st1 out1 i1 i2
                (fun s hs => i3 s (popToParen_subset st out st1 out1 hpp s hs)) hk').1
          · exfalso
            rcases hp with h | h | h | h
            · exact hd h
            · exact ho (i1 p h)
            · exact hl h
            · exact hr h

theorem exists_first_token (P : Str → Bool) (l : List Str) (h : ∃ t ∈ l, P t = true) :
    ∃ pre t0 post, l = pre ++ t0 :: post ∧ (∀ p ∈ pre, P p = false) ∧ P t0 = true := by
  induction l with
  | nil => obtain ⟨t, ht, _⟩ := h; simp at ht
  | cons a l ih =>
    by_cases ha : P a = true
    · exact ⟨[], a, l, rfl, by simp, ha⟩
    · have ha' : P a = false := by simpa using ha
      obtain ⟨t, ht, hPt⟩ := h
      rcases List.mem_cons.mp ht with rfl | ht'
      · exact absurd hPt ha
      · obtain ⟨pre, t0, post, e1, e2, e3⟩ := ih ⟨t, ht', hPt⟩
        refine ⟨a :: pre, t0, post, by rw [e1]; rfl, ?_, e3⟩
        intro p hp
        rcases List.mem_cons.mp hp with rfl | hp'
        · exact ha'
        · exact e2 p hp'

/-- Method `eval` fails with the error of the conversion. -/
theorem eval_of_toPostfix_error (e : Evaluator) (s : Str) (err : Err)
    (h : (e.toPostfix (tokenize s)).2 = .error err) : (e.eval s).2 = .error err := by
  unfold Evaluator.eval
  rcases hp : e.toPostfix (tokenize s) with ⟨e', x | pf⟩
  · rw [hp] at h
    simp only [Except.error.injEq] at h
    simp [h]
  · rw [hp] at h; simp at h


theorem headIsDigit_of_token (s t : Str) (ht : t ∈ tokenize s)
    (hn : isNumber t = false) : headIsDigit t = false := by
  rcases tokenize_shape s.length s le_rfl t ht with h | hm | ⟨c, rfl, hc, _⟩
  · rw [hn] at h; exact absurd h (by simp)
  · simp only [String.toList, List.mem_cons, List.mem_singleton, List.not_mem_nil,
      or_false] at hm
    rcases hm with rfl | rfl | rfl | rfl <;> decide
  · simpa [headIsDigit] using hc

/-- C15. For every expression with at least one token that is not a number
literal, not a key of the initial precedence table and not a parenthesis, `eval`
on a freshly constructed object returns no result: with `t0` the first such
token, it fails with "Invalid token: t0", or with "Mismatched parentheses", and
the latter only if a `)` stands before `t0`. -/
theorem unknown_symbol_rejected (expression : Str)
    (h : ∃ t ∈ tokenize expression, isUnknownToken t = true) :
    ∃ pre t0 post, tokenize expression = pre ++ t0 :: post ∧
      (∀ p ∈ pre, isUnknownToken p = false) ∧ isUnknownToken t0 = true ∧
      ((Evaluator.new.eval expression).2 = .error (.invalidToken t0) ∨
        (Evaluator.new.eval expression).2 = .error .mismatchedParentheses) ∧
      (")".toList ∉ pre →
        (Evaluator.new.eval expression).2 = .error (.invalidToken t0)) := by
  obtain ⟨pre, t0, post, hsplit, hpre, ht0⟩ :=
    exists_first_token isUnknownToken (tokenize expression) h
  refine ⟨pre, t0, post, hsplit, hpre, ht0, ?_⟩
  have mem0 : t0 ∈ tokenize expression := by rw [hsplit]; simp
  simp only [isUnknownToken, Bool.and_eq_true, Bool.not_eq_true', decide_eq_false_iff_not]
    at ht0
  obtain ⟨⟨⟨n0, o0⟩, l0⟩, r0⟩ := ht0
  have d0 := headIsDigit_of_token expression t0 mem0 n0
  have known : ∀ p ∈ pre, headIsDigit p = true ∨ Evaluator.new.isOperator p = true ∨
      p = ['('] ∨ p = [')'] := by
    intro p hp
    have hu := hpre p hp
    simp only [isUnknownToken, Bool.and_eq_false_iff, Bool.not_eq_false',
      decide_eq_true_eq] at hu
    rcases hu with ((hu | hu) | hu) | hu
    · exact Or.inl (headIsDigit_of_isNumber p hu)
    · exact Or.inr (Or.inl hu)
    · exact Or.inr (Or.inr (Or.inl hu))
    · exact Or.inr (Or.inr (Or.inr hu))
  obtain ⟨a, b⟩ := toPostfixLoop_unknown pre t0 post d0 o0 l0 r0 Evaluator.new [] []
    (fun k hk => hk) (fun k hk => Or.inl hk) (fun s hs => by simp at hs) known
  have conv : (Evaluator.new.toPostfix (tokenize expression)).2
      = (toPostfixLoop Evaluator.new [] [] (pre ++ t0 :: post)).2 := by
    rw [hsplit]; rfl
  constructor
  · rcases a with a | a
    · exact Or.inl (eval_of_toPostfix_error _ _ _ (conv.trans a))
    · exact Or.inr (eval_of_toPostfix_error _ _ _ (conv.trans a))
  · intro hno
    exact eval_of_toPostfix_error _ _ _ (conv.trans (b hno))

/-- C15, at `1+a`, `2=2` and `1&1`: the first unknown tokens are `a`, `=` and `&`,
and no `)` stands before them. -/
theorem unknown_symbol_rejected_witness :
    ((Evaluator.new.eval "1+a".toList).2 = .error (.invalidToken "a".toList) ∧
      (Evaluator.new.eval "2=2".toList).2 = .error (.invalidToken "=".toList) ∧
      (Evaluator.new.eval "1&1".toList).2 = .error (.invalidToken "&".toList)) ∧
    ∃ pre t0 post, tokenize "1+a".toList = pre ++ t0 :: post ∧
      (∀ p ∈ pre, isUnknownToken p = false) ∧ isUnknownToken t0 = true ∧
      ((Evaluator.new.eval "1+a".toList).2 = .error (.invalidToken t0) ∨
        (Evaluator.new.eval "1+a".toList).2 = .error .mismatchedParentheses) ∧
      (")".toList ∉ pre →
        (Evaluator.new.eval "1+a".toList).2 = .error (.invalidToken t0)) :=
  ⟨by decide,
   unknown_symbol_rejected "1+a".toList ⟨"a".toList, by decide, by decide⟩⟩


/-! ## The objects a program can hold -/

theorem index_of_isOperator (e : Evaluator) (k : Str) (h : e.isOperator k = true) :
    (e.index k).2 = e := by
  simp only [Evaluator.isOperator] at h
  obtain ⟨v, hv⟩ := Option.isSome_iff_exists.mp h
  rw [index_of_find e k v hv]

/-- A read `precedence[k]` with `k` a key or `(` leaves one of the two objects. -/
theorem index_isReachable (e : Evaluator) (k : Str) (he : isReachable e = true)
    (hk : e.isOperator k = true ∨ k = ['(']) : isReachable (e.index k).2 = true := by
  rcases hk with hk | rfl
  · rw [index_of_isOperator e k hk]; exact he
  · rcases isReachable_cases e he with rfl | rfl <;> decide

/-- The operator loop leaves one of the two objects, when the stack holds keys and
`(` only. -/
theorem popHigher_isReachable (tok : Str) (st : List Str) :
    ∀ (e : Evaluator) (out : Str), isReachable e = true → e.isOperator tok = true →
    (∀ s ∈ st, e.isOperator s = true ∨ s = ['(']) →
    isReachable (popHigher e tok st out).1 = true := by
  induction st with
  | nil => intro e out he _ _; simpa [popHigher] using he
  | cons top rest ih =>
    intro e out he ho hs
    have r1 : isReachable (e.index top).2 = true :=
      index_isReachable e top he (hs top (List.mem_cons_self _ _))
    have o1 : (e.index top).2.isOperator tok = true :=
      (isOperator_index e top tok).mpr (Or.inl ho)
    have e2 : ((e.index top).2.index tok).2 = (e.index top).2 :=
      index_of_isOperator _ tok o1
    by_cases hc : ((e.index top).2.index tok).1 ≤ (e.index top).1
    · simp only [popHigher, hc, if_true, e2]
      refine ih _ _ r1 o1 (fun s hm => ?_)
      rcases hs s (List.mem_cons_of_mem _ hm) with h | h
      · exact Or.inl ((isOperator_index e top s).mpr (Or.inl h))
      · exact Or.inr h
    · simp only [popHigher, hc, if_false, e2]
      exact r1

/-- The conversion leaves one of the two objects, when the stack holds keys and
`(` only. -/
theorem toPostfixLoop_isReachable (toks : List Str) :
    ∀ (e : Evaluator) (st : List Str) (out : Str), isReachable e = true →
    (∀ s ∈ st, e.isOperator s = true ∨ s = ['(']) →
    isReachable (toPostfixLoop e st out toks).1 = true := by
  induction toks with
  | nil => intro e st out he _; simpa [toPostfixLoop] using he
  | cons t toks ih =>
    intro e st out he hs
    by_cases hd : headIsDigit t = true
    · simp only [toPostfixLoop, hd, if_true]
      exact ih e st _ he hs
    · by_cases ho : e.isOperator t = true
      · simp only [toPostfixLoop, hd, ho, if_true, Bool.false_eq_true, if_false]
        obtain ⟨k1, _, k3⟩ := popHigher_keys t st e out
        refine ih _ _ _ (popHigher_isReachable t st e out he ho hs) (fun s hm => ?_)
        rcases List.mem_cons.mp hm with rfl | hm'
        · exact Or.inl (k1 s ho)
        · rcases hs s (k3 s hm') with h | h
          · exact Or.inl (k1 s h)
          · exact Or.inr h
      · have ho' : e.isOperator t = false := by simpa using ho
        have hd' : headIsDigit t = false := by simpa using hd
        by_cases hl : t = ['(']
        · subst hl
          have step : toPostfixLoop e st out (['('] :: toks)
              = toPostfixLoop e (['('] :: st) out toks := by
            simp [toPostfixLoop, hd', ho']
          rw [step]
          refine ih e _ out he (fun s hm => ?_)
          rcases List.mem_cons.mp hm with h | hm'
          · exact Or.inr h
          · exact hs s hm'
        · by_cases hr : t = [')']
          · subst hr
            rcases hp : popToParen st out with _ | ⟨st1, out1⟩
            · have step : toPostfixLoop e st out ([')'] :: toks)
                  = (e, .error .mismatchedParentheses) := by
                simp [toPostfixLoop, hd', ho', hp]
              rw [step]; exact he
            · have step : toPostfixLoop e st out ([')'] :: toks)
                  = toPostfixLoop e st1 out1 toks := by
                simp [toPostfixLoop, hd', ho', hp]
              rw [step]
              exact ih e st1 out1 he
                (fun s hm => hs s (popToParen_subset st out st1 out1 hp s hm))
          · have step : toPostfixLoop e st out (t :: toks)
                = (e, .error (.invalidToken t)) := by
              simp [toPostfixLoop, hd', ho', hl, hr]
            rw [step]; exact he

theorem eval_fst (e : Evaluator) (s : Str) :
    (e.eval s).1 = (e.toPostfix (tokenize s)).1 := by
  unfold Evaluator.eval
  rcases e.toPostfix (tokenize s) with ⟨e', x | pf⟩
  · rfl
  · simp only
    rcases e'.evaluatePostfix pf with y | r <;> rfl

/-- Method `eval` on either of the two objects leaves one of the two: the
constructor and calls of `eval` produce no other object. -/
theorem eval_isReachable (e : Evaluator) (s : Str) (he : isReachable e = true) :
    isReachable (e.eval s).1 = true := by
  rw [eval_fst]
  exact toPostfixLoop_isReachable (tokenize s) e [] [] he (fun s hs => by simp at hs)

end InfixParser
